import Mathlib

/-!
Verification of the Web_2025 information-retrieval repository.

Each Python function under scrutiny is shallowly embedded as a Lean
definition over lists and natural numbers (machine integers appear with
explicit bounds such as `< 2 ^ 32` where the binary codecs pack them);
real-valued scoring code (TF-IDF, cosine similarity) is embedded over `ℝ`,
idealising Python floats as reals.  Posting lists are `List ℕ` of document
ids; the two-pointer loops of the Python code become recursions that drop
the consumed prefixes of the lists, and index-based loops keep explicit
index arguments.
-/

/-! ## Boolean postings operations (src/lab1/5_A_1.py)

The three merge loops walk two ascending document-id lists with indices
i and j; the embedding drops consumed prefixes instead of moving indices,
which is the same computation because each loop only ever reads position
i (resp. j) onward.  The trailing answer.extend(p1[i:]) tails of union and
difference become the base cases for an exhausted list. -/

/-- Embeds intersect of src/lab1/5_A_1.py: two-pointer AND merge. -/
def intersect : List ℕ → List ℕ → List ℕ
  | [], _ => []
  | _ :: _, [] => []
  | a :: as, b :: bs =>
    if a = b then a :: intersect as bs
    else if a < b then intersect as (b :: bs)
    else intersect (a :: as) bs

/-- Embeds union of src/lab1/5_A_1.py: two-pointer OR merge, keeping one
copy of a shared head and appending the remainder of whichever list
survives. -/
def union : List ℕ → List ℕ → List ℕ
  | [], ys => ys
  | x :: xs, [] => x :: xs
  | x :: xs, y :: ys =>
    if x = y then x :: union xs ys
    else if x < y then x :: union xs (y :: ys)
    else y :: union (x :: xs) ys

/-- Embeds difference of src/lab1/5_A_1.py: p1 AND NOT p2. -/
def difference : List ℕ → List ℕ → List ℕ
  | [], _ => []
  | x :: xs, [] => x :: xs
  | a :: as, b :: bs =>
    if a = b then difference as bs
    else if a < b then a :: difference as (b :: bs)
    else difference (a :: as) bs

theorem intersect_eq_filter (A B : List ℕ) (hA : A.Pairwise (· < ·))
    (hB : B.Pairwise (· < ·)) :
    intersect A B = A.filter (fun a => decide (a ∈ B)) := by
  induction A, B using intersect.induct with
  | case1 B => simp [intersect]
  | case2 a as => simp [intersect]
  | case3 as b bs ih =>
    rw [intersect]
    simp only [if_pos rfl]
    rw [ih (List.Pairwise.sublist (List.sublist_cons_self b as) hA)
      (List.Pairwise.sublist (List.sublist_cons_self b bs) hB)]
    have hmem : ∀ x ∈ as, (decide (x ∈ bs)) = (decide (x ∈ b :: bs)) := by
      intro x hx
      have hbx : b < x := (List.pairwise_cons.1 hA).1 x hx
      simp [List.mem_cons, Nat.ne_of_gt hbx]
    rw [List.filter_congr hmem]
    simp [List.mem_cons]
  | case4 a as b bs hne hlt ih =>
    rw [intersect, if_neg hne, if_pos hlt,
      ih (List.Pairwise.sublist (List.sublist_cons_self a as) hA) hB]
    have ha : a ∉ b :: bs := by
      intro hmem
      rcases List.mem_cons.1 hmem with h | h
      · omega
      · have : b < a := (List.pairwise_cons.1 hB).1 a h
        omega
    rw [List.filter_cons_of_neg (by simpa using ha)]
  | case5 a as b bs hne hgt ih =>
    rw [intersect, if_neg hne, if_neg hgt,
      ih hA (List.Pairwise.sublist (List.sublist_cons_self b bs) hB)]
    apply List.filter_congr
    intro x hx
    have hbx : b < x := by
      rcases List.mem_cons.1 hx with h | h
      · omega
      · have : a < x := (List.pairwise_cons.1 hA).1 x h
        omega
    simp [List.mem_cons, Nat.ne_of_gt hbx]

theorem difference_eq_filter (A B : List ℕ) (hA : A.Pairwise (· < ·))
    (hB : B.Pairwise (· < ·)) :
    difference A B = A.filter (fun a => !decide (a ∈ B)) := by
  induction A, B using difference.induct with
  | case1 B => simp [difference]
  | case2 a as => simp [difference]
  | case3 as b bs ih =>
    rw [difference]
    simp only [if_pos rfl]
    rw [ih (List.Pairwise.sublist (List.sublist_cons_self b as) hA)
      (List.Pairwise.sublist (List.sublist_cons_self b bs) hB)]
    have hmem : ∀ x ∈ as, (!decide (x ∈ bs)) = (!decide (x ∈ b :: bs)) := by
      intro x hx
      have hbx : b < x := (List.pairwise_cons.1 hA).1 x hx
      simp [List.mem_cons, Nat.ne_of_gt hbx]
    rw [List.filter_congr hmem]
    simp [List.mem_cons]
  | case4 a as b bs hne hlt ih =>
    rw [difference, if_neg hne, if_pos hlt,
      ih (List.Pairwise.sublist (List.sublist_cons_self a as) hA) hB]
    have ha : a ∉ b :: bs := by
      intro hmem
      rcases List.mem_cons.1 hmem with h | h
      · omega
      · have : b < a := (List.pairwise_cons.1 hB).1 a h
        omega
    rw [List.filter_cons_of_pos (by simpa using ha)]
  | case5 a as b bs hne hgt ih =>
    rw [difference, if_neg hne, if_neg hgt,
      ih hA (List.Pairwise.sublist (List.sublist_cons_self b bs) hB)]
    apply List.filter_congr
    intro x hx
    have hbx : b < x := by
      rcases List.mem_cons.1 hx with h | h
      · omega
      · have : a < x := (List.pairwise_cons.1 hA).1 x h
        omega
    simp [List.mem_cons, Nat.ne_of_gt hbx]

theorem union_nil_right (xs : List ℕ) : union xs [] = xs := by
  cases xs <;> simp [union]

theorem union_cons_left_lt (a : ℕ) (X Y : List ℕ) (h : ∀ y ∈ Y, a < y) :
    union (a :: X) Y = a :: union X Y := by
  cases Y with
  | nil => rw [union_nil_right, union_nil_right]
  | cons y ys =>
    have hay : a < y := h y (List.mem_cons_self y ys)
    rw [union, if_neg (by omega), if_pos hay]

theorem union_cons_right_lt (a : ℕ) (X Y : List ℕ) (h : ∀ x ∈ X, a < x) :
    union X (a :: Y) = a :: union X Y := by
  cases X with
  | nil => simp [union]
  | cons x xs =>
    have hax : a < x := h x (List.mem_cons_self x xs)
    rw [union, if_neg (by omega), if_neg (by omega)]

theorem union_split_filter (p : ℕ → Bool) (A : List ℕ)
    (hA : A.Pairwise (· < ·)) :
    union (A.filter (fun x => !p x)) (A.filter p) = A := by
  induction A with
  | nil => simp [union]
  | cons a as ih =>
    have hrest : ∀ x ∈ as, a < x := (List.pairwise_cons.1 hA).1
    have ih2 := ih (List.Pairwise.sublist (List.sublist_cons_self a as) hA)
    cases hp : p a with
    | true =>
      rw [show List.filter (fun x => !p x) (a :: as) =
            List.filter (fun x => !p x) as from
          List.filter_cons_of_neg (by simp [hp]),
        show List.filter p (a :: as) = a :: List.filter p as from
          List.filter_cons_of_pos (by simp [hp]),
        union_cons_right_lt a _ _ (by
          intro x hx
          exact hrest x (List.mem_of_mem_filter hx)), ih2]
    | false =>
      rw [show List.filter (fun x => !p x) (a :: as) =
            a :: List.filter (fun x => !p x) as from
          List.filter_cons_of_pos (by simp [hp]),
        show List.filter p (a :: as) = List.filter p as from
          List.filter_cons_of_neg (by simp [hp]),
        union_cons_left_lt a _ _ (by
          intro x hx
          exact hrest x (List.mem_of_mem_filter hx)), ih2]

/-! ## Skip-pointer construction (src/3.py and src/lab1/3.py)

build_skip_pointers computes skip_interval = int(n ** 0.5), which for a
natural n is the integer square root Nat.sqrt n (CPython's pow of an exact
square of this size is the correctly rounded square root), then walks
for i in range(0, n, skip_interval) and emits a {from, to, jump} record
whenever next_i = i + skip_interval < n.  The range walk is embedded as
skipLoop; a record is the triple (posting_list[i], posting_list[i+s], s). -/

/-- Embeds the for-loop of build_skip_pointers: i walks 0, s, 2s, ... while
i < n, emitting (L[i], L[i+s], s) whenever i + s < n.  The 1 ≤ s conjunct
is required for termination; the caller guards s > 1. -/
def skipLoop (L : List ℕ) (s i : ℕ) : List (ℕ × ℕ × ℕ) :=
  if _h : i < L.length ∧ 1 ≤ s then
    (if i + s < L.length then [(L.getD i 0, L.getD (i + s) 0, s)] else []) ++
      skipLoop L s (i + s)
  else []
termination_by L.length - i
decreasing_by omega

/-- Embeds build_skip_pointers of src/3.py (identical in src/lab1/3.py). -/
def build_skip_pointers (L : List ℕ) : List (ℕ × ℕ × ℕ) :=
  if 1 < Nat.sqrt L.length then skipLoop L (Nat.sqrt L.length) 0 else []

theorem skipLoop_eq (L : List ℕ) (s : ℕ) (hs : 1 ≤ s) :
    ∀ (j i : ℕ), L.length ≤ i + j * s + s →
      skipLoop L s i =
        ((List.range' i j s).filter
            (fun x => decide (x + s < L.length))).map
          (fun x => (L.getD x 0, L.getD (x + s) 0, s)) := by
  intro j
  induction j with
  | zero =>
    intro i hij
    rw [skipLoop]
    by_cases hi : i < L.length ∧ 1 ≤ s
    · rw [dif_pos hi, if_neg (by omega), skipLoop, dif_neg (by omega)]
      simp [List.range']
    · rw [dif_neg hi]
      simp [List.range']
  | succ j ih =>
    intro i hij
    rw [Nat.succ_mul] at hij
    rw [skipLoop]
    by_cases hi : i < L.length ∧ 1 ≤ s
    · rw [dif_pos hi, ih (i + s) (by omega)]
      simp only [List.range']
      rw [List.filter_cons]
      by_cases hc : i + s < L.length
      · simp [hc]
      · simp [hc]
    · rw [dif_neg hi]
      have hni : L.length ≤ i := by
        rcases Nat.lt_or_ge i L.length with h | h
        · exact absurd ⟨h, hs⟩ hi
        · exact h
      have hall : ∀ x ∈ List.range' i (j + 1) s,
          ¬((fun x => decide (x + s < L.length)) x = true) := by
        intro x hx
        rw [List.mem_range'] at hx
        obtain ⟨k, hk, hxe⟩ := hx
        subst hxe
        simp only [decide_eq_true_eq]
        intro hcon
        have hge : i ≤ i + s * k := Nat.le_add_right _ _
        omega
      rw [List.filter_eq_nil_iff.2 hall]
      simp

/-- Characterization of build_skip_pointers: with s = Nat.sqrt n, the
output (for s ≥ 2) holds one record per multiple of s — enumerated in
increasing order by List.range' 0 n s — whose successor stride start
i + s is still inside the list, and is empty for s < 2. -/
theorem build_skip_pointers_eq (L : List ℕ) :
    build_skip_pointers L =
      if 2 ≤ Nat.sqrt L.length then
        ((List.range' 0 L.length (Nat.sqrt L.length)).filter
            (fun i => decide (i + Nat.sqrt L.length < L.length))).map
          (fun i => (L.getD i 0, L.getD (i + Nat.sqrt L.length) 0,
            Nat.sqrt L.length))
      else [] := by
  rw [build_skip_pointers]
  by_cases h : 1 < Nat.sqrt L.length
  · rw [if_pos h, if_pos (by omega)]
    apply skipLoop_eq L (Nat.sqrt L.length) (by omega) L.length 0
    have hmul : L.length ≤ L.length * Nat.sqrt L.length :=
      Nat.le_mul_of_pos_right L.length (by omega)
    omega
  · rw [if_neg h, if_neg (by omega)]

/-- Claim C3: build_skip_pointers uses step s = floor(sqrt(n)); for s ≥ 2
it emits exactly one pointer (L[i], L[i+s], s) for each multiple i of s
with i + s < n, in increasing order of i, and emits none for s < 2; a
100-element list uses step 10 and yields exactly the 9 stride starts i
(0, 10, ..., 80) with i + 10 < 100 allowed by the next_i < n rule. -/
theorem claim_C3 :
    (∀ L : List ℕ,
      build_skip_pointers L =
        if 2 ≤ Nat.sqrt L.length then
          ((List.range' 0 L.length (Nat.sqrt L.length)).filter
              (fun i => decide (i + Nat.sqrt L.length < L.length))).map
            (fun i => (L.getD i 0, L.getD (i + Nat.sqrt L.length) 0,
              Nat.sqrt L.length))
        else []) ∧
      Nat.sqrt 100 = 10 ∧
      (build_skip_pointers (List.range 100)).length = 9 := by
  have h100 : Nat.sqrt 100 = 10 := by
    rw [show (100 : ℕ) = 10 * 10 from rfl, Nat.sqrt_eq]
  refine ⟨build_skip_pointers_eq, h100, ?_⟩
  rw [build_skip_pointers_eq (List.range 100)]
  simp only [List.length_range, h100]
  decide

/-! ## Skip-list intersection (src/lab1/5_A_4.py)

SkipListIndex.__init__ builds skip_pointers = {i: min(i + skip_step, n-1)}
for i in range(0, n, skip_step) whenever the target exceeds i; the dict is
embedded as the partial function skip_pointers n step i.
intersect_with_skiplist walks both lists with indices i, j; its two
"advance the lagging side" branches (consult the pointer, jump if the
landing value still does not pass the other side's current value,
otherwise step by one) are embedded as skip_next. -/

/-- Embeds the skip_pointers dict of SkipListIndex.__init__: defined at the
range(0, n, step) indices i (multiples of step below n) whose target
min(i + step, n - 1) exceeds i. -/
def skip_pointers (n step i : ℕ) : Option ℕ :=
  if i % step = 0 ∧ i < n ∧ i < min (i + step) (n - 1) then
    some (min (i + step) (n - 1))
  else none

theorem skip_pointers_some {n step i t : ℕ}
    (h : skip_pointers n step i = some t) : i < t ∧ t < n := by
  rw [skip_pointers] at h
  split_ifs at h with hc
  cases h
  omega

/-- Embeds one "advance i" step of intersect_with_skiplist when
docs1[i] < docs2[j] (b is the other list's current value): jump to the
pointer target when it exists and its value is still ≤ b, else i + 1. -/
def skip_next (A : List ℕ) (step i b : ℕ) : ℕ :=
  match skip_pointers A.length step i with
  | some t => if A.getD t 0 ≤ b then t else i + 1
  | none => i + 1

theorem skip_next_gt (A : List ℕ) (step i b : ℕ) :
    i < skip_next A step i b := by
  rw [skip_next]
  cases h : skip_pointers A.length step i with
  | none => exact Nat.lt_succ_self i
  | some t =>
    have ht := skip_pointers_some h
    show i < if A.getD t 0 ≤ b then t else i + 1
    split_ifs <;> omega

theorem skip_next_cases (A : List ℕ) (step i b : ℕ) :
    skip_next A step i b = i + 1 ∨
      (i < skip_next A step i b ∧ skip_next A step i b < A.length ∧
        A.getD (skip_next A step i b) 0 ≤ b) := by
  rw [skip_next]
  cases h : skip_pointers A.length step i with
  | none => exact Or.inl rfl
  | some t =>
    have ht := skip_pointers_some h
    by_cases hle : A.getD t 0 ≤ b
    · refine Or.inr ?_
      show (i < if A.getD t 0 ≤ b then t else i + 1) ∧
        (if A.getD t 0 ≤ b then t else i + 1) < A.length ∧
          A.getD (if A.getD t 0 ≤ b then t else i + 1) 0 ≤ b
      rw [if_pos hle]
      exact ⟨ht.1, ht.2, hle⟩
    · refine Or.inl ?_
      show (if A.getD t 0 ≤ b then t else i + 1) = i + 1
      exact if_neg hle

/-- Embeds the while loop of intersect_with_skiplist over indices i, j. -/
def interSkipGo (A B : List ℕ) (s1 s2 i j : ℕ) : List ℕ :=
  if h : i < A.length ∧ j < B.length then
    if A.getD i 0 = B.getD j 0 then
      A.getD i 0 :: interSkipGo A B s1 s2 (i + 1) (j + 1)
    else if A.getD i 0 < B.getD j 0 then
      interSkipGo A B s1 s2 (skip_next A s1 i (B.getD j 0)) j
    else
      interSkipGo A B s1 s2 i (skip_next B s2 j (A.getD i 0))
  else []
termination_by (A.length - i) + (B.length - j)
decreasing_by
  · omega
  · have := skip_next_gt A s1 i (B.getD j 0)
    omega
  · have := skip_next_gt B s2 j (A.getD i 0)
    omega

/-- Embeds intersect_with_skiplist of src/lab1/5_A_4.py, taking the two
doc-id lists and the two skip steps of the SkipListIndex arguments. -/
def intersect_with_skiplist (A B : List ℕ) (s1 s2 : ℕ) : List ℕ :=
  interSkipGo A B s1 s2 0 0

/-- Embeds intersect_without_skiplist of src/lab1/5_A_4.py (the same
two-pointer merge as intersect of src/lab1/5_A_1.py, duplicated in the
source). -/
def intersect_without_skiplist : List ℕ → List ℕ → List ℕ
  | [], _ => []
  | _ :: _, [] => []
  | a :: as, b :: bs =>
    if a = b then a :: intersect_without_skiplist as bs
    else if a < b then intersect_without_skiplist as (b :: bs)
    else intersect_without_skiplist (a :: as) bs

theorem intersect_without_skiplist_eq (A B : List ℕ) :
    intersect_without_skiplist A B = intersect A B := by
  induction A, B using intersect_without_skiplist.induct with
  | case1 B => rw [intersect_without_skiplist, intersect]
  | case2 a as => rw [intersect_without_skiplist, intersect]
  | case3 as b bs ih =>
    rw [intersect_without_skiplist, intersect]
    simp [ih]
  | case4 a as b bs hne hlt ih =>
    rw [intersect_without_skiplist, intersect]
    simp [hne, hlt, ih]
  | case5 a as b bs hne hgt ih =>
    rw [intersect_without_skiplist, intersect]
    simp [hne, hgt, ih]

theorem getD_eq_getElem (A : List ℕ) (i : ℕ) (h : i < A.length) :
    A.getD i 0 = A[i] := by
  simp [List.getD_eq_getElem?_getD, List.getElem?_eq_getElem h]

theorem sorted_getElem_lt {A : List ℕ} (hA : A.Pairwise (· < ·))
    {i j : ℕ} (hij : i < j) (hj : j < A.length) : A[i] < A[j] :=
  List.pairwise_iff_getElem.1 hA i j (by omega) hj hij

theorem sorted_drop_head_le {A : List ℕ} (hA : A.Pairwise (· < ·))
    {i : ℕ} (hi : i < A.length) : ∀ x ∈ A.drop i, A[i] ≤ x := by
  intro x hx
  rw [List.drop_eq_getElem_cons hi] at hx
  rcases List.mem_cons.1 hx with h | h
  · omega
  · have hp : (A.drop (i + 1)).Pairwise (· < ·) :=
      List.Pairwise.sublist (List.drop_sublist (i + 1) A) hA
    rw [List.mem_iff_getElem] at h
    obtain ⟨k, hk, hke⟩ := h
    rw [List.getElem_drop] at hke
    have hk2 : i + 1 + k < A.length := by
      rw [List.length_drop] at hk
      omega
    have := sorted_getElem_lt hA (show i < i + 1 + k by omega) hk2
    omega

theorem sorted_drop_succ_lt {A : List ℕ} (hA : A.Pairwise (· < ·))
    {i : ℕ} (hi : i < A.length) : ∀ x ∈ A.drop (i + 1), A[i] < x := by
  intro x hx
  rw [List.mem_iff_getElem] at hx
  obtain ⟨k, hk, hke⟩ := hx
  rw [List.getElem_drop] at hke
  have hk2 : i + 1 + k < A.length := by
    rw [List.length_drop] at hk
    omega
  have := sorted_getElem_lt hA (show i < i + 1 + k by omega) hk2
  omega

theorem filter_drop_of_prefix_false (P : ℕ → Bool) (X : List ℕ) (m : ℕ)
    (h : ∀ x ∈ X.take m, P x = false) :
    X.filter P = (X.drop m).filter P := by
  conv_lhs => rw [← List.take_append_drop m X]
  rw [List.filter_append, List.filter_eq_nil_iff.2 (by
    intro a ha
    simp [h a ha]), List.nil_append]

theorem mem_drop_iff_of_lt (Y : List ℕ) (m c x : ℕ)
    (h : ∀ y ∈ Y.take m, y < c) (hx : c ≤ x) :
    x ∈ Y ↔ x ∈ Y.drop m := by
  constructor
  · intro hmem
    rw [← List.take_append_drop m Y, List.mem_append] at hmem
    rcases hmem with hm | hm
    · have := h x hm
      omega
    · exact hm
  · intro hmem
    rw [← List.take_append_drop m Y, List.mem_append]
    exact Or.inr hmem

theorem interSkipGo_eq (A B : List ℕ) (s1 s2 : ℕ)
    (hA : A.Pairwise (· < ·)) (hB : B.Pairwise (· < ·)) :
    ∀ N i j, (A.length - i) + (B.length - j) ≤ N →
      interSkipGo A B s1 s2 i j =
        (A.drop i).filter (fun a => decide (a ∈ B.drop j)) := by
  intro N
  induction N with
  | zero =>
    intro i j hN
    rw [interSkipGo, dif_neg (by omega)]
    have hA0 : A.drop i = [] := List.drop_eq_nil_of_le (by omega)
    rw [hA0]
    rfl
  | succ N ih =>
    intro i j hN
    rw [interSkipGo]
    by_cases h : i < A.length ∧ j < B.length
    · obtain ⟨hi, hj⟩ := h
      rw [dif_pos ⟨hi, hj⟩]
      have hAi := getD_eq_getElem A i hi
      have hBj := getD_eq_getElem B j hj
      have hdropA : A.drop i = A[i] :: A.drop (i + 1) :=
        List.drop_eq_getElem_cons hi
      have hdropB : B.drop j = B[j] :: B.drop (j + 1) :=
        List.drop_eq_getElem_cons hj
      by_cases heq : A.getD i 0 = B.getD j 0
      · have hab : A[i] = B[j] := by rw [← hAi, ← hBj]; exact heq
        have hcond : (fun a => decide (a ∈ B[j] :: B.drop (j + 1))) A[i]
            = true := by
          simp only [decide_eq_true_eq, List.mem_cons]
          exact Or.inl hab
        rw [if_pos heq, ih (i + 1) (j + 1) (by omega), hdropA, hdropB,
          List.filter_cons, if_pos hcond]
        rw [hAi, hab]
        congr 1
        apply List.filter_congr
        intro x hx
        have hgt : B[j] < x := hab ▸ sorted_drop_succ_lt hA hi x hx
        rw [decide_eq_decide, List.mem_cons]
        constructor
        · exact Or.inr
        · rintro (h2 | h2)
          · omega
          · exact h2
      · by_cases hlt : A.getD i 0 < B.getD j 0
        · rw [if_neg heq, if_pos hlt,
            ih (skip_next A s1 i (B.getD j 0)) j
              (by have := skip_next_gt A s1 i (B.getD j 0); omega)]
          have hdd : (A.drop i).drop (skip_next A s1 i (B.getD j 0) - i) =
              A.drop (skip_next A s1 i (B.getD j 0)) := by
            rw [List.drop_drop]
            congr 1
            have := skip_next_gt A s1 i (B.getD j 0)
            omega
          rw [← hdd, ← filter_drop_of_prefix_false _ _ _ ?hpref]
          case hpref =>
            intro x hx
            rw [List.mem_iff_getElem] at hx
            obtain ⟨m, hm, hme⟩ := hx
            rw [List.getElem_take, List.getElem_drop] at hme
            have hmlen : i + m < A.length := by
              simp only [List.length_take, List.length_drop] at hm
              omega
            have hmk : i + m < skip_next A s1 i (B.getD j 0) := by
              simp only [List.length_take, List.length_drop] at hm
              omega
            have hxb : x < B[j] := by
              rcases skip_next_cases A s1 i (B.getD j 0) with hc | hc
              · have hm0 : m = 0 := by omega
                subst hm0
                simp only [Nat.add_zero] at hme
                rw [← hme, ← hAi, ← hBj]
                exact hlt
              · obtain ⟨hc1, hc2, hc3⟩ := hc
                have hgk := getD_eq_getElem A _ hc2
                have hlt2 : A[i + m] < A[skip_next A s1 i (B.getD j 0)] :=
                  sorted_getElem_lt hA hmk hc2
                rw [← hme, ← hBj]
                rw [hgk] at hc3
                omega
            have hnot : x ∉ B.drop j := by
              intro hmem
              have := sorted_drop_head_le hB hj x hmem
              omega
            simp [hnot]
        · rw [if_neg heq, if_neg hlt,
            ih i (skip_next B s2 j (A.getD i 0))
              (by have := skip_next_gt B s2 j (A.getD i 0); omega)]
          apply List.filter_congr
          intro x hx
          have hax : A[i] ≤ x := sorted_drop_head_le hA hi x hx
          have hdd : (B.drop j).drop (skip_next B s2 j (A.getD i 0) - j) =
              B.drop (skip_next B s2 j (A.getD i 0)) := by
            rw [List.drop_drop]
            congr 1
            have := skip_next_gt B s2 j (A.getD i 0)
            omega
          have hiff : x ∈ B.drop j ↔
              x ∈ B.drop (skip_next B s2 j (A.getD i 0)) := by
            rw [← hdd]
            apply mem_drop_iff_of_lt _ _ (A.getD i 0) x _ (by omega)
            intro y hy
            rw [List.mem_iff_getElem] at hy
            obtain ⟨m, hm, hme⟩ := hy
            rw [List.getElem_take, List.getElem_drop] at hme
            have hmlen : j + m < B.length := by
              simp only [List.length_take, List.length_drop] at hm
              omega
            have hmk : j + m < skip_next B s2 j (A.getD i 0) := by
              simp only [List.length_take, List.length_drop] at hm
              omega
            rcases skip_next_cases B s2 j (A.getD i 0) with hc | hc
            · have hm0 : m = 0 := by omega
              subst hm0
              simp only [Nat.add_zero] at hme
              rw [← hme, ← hBj]
              omega
            · obtain ⟨hc1, hc2, hc3⟩ := hc
              have hgk := getD_eq_getElem B _ hc2
              have hlt2 : B[j + m] < B[skip_next B s2 j (A.getD i 0)] :=
                sorted_getElem_lt hB hmk hc2
              rw [← hme]
              rw [hgk] at hc3
              omega
          rw [decide_eq_decide]
          exact hiff.symm
    · rw [dif_neg h]
      rcases Nat.lt_or_ge i A.length with hi | hi
      · have hj : B.length ≤ j := by
          rcases Nat.lt_or_ge j B.length with h2 | h2
          · exact absurd ⟨hi, h2⟩ h
          · exact h2
        rw [List.drop_eq_nil_of_le hj]
        simp
      · rw [List.drop_eq_nil_of_le hi]
        rfl

/-- Claim C2: for strictly ascending lists A and B and any skip steps
s1, s2 ≥ 1, intersecting via the skip-pointer overlay returns exactly the
plain two-pointer intersection. -/
theorem claim_C2 (A B : List ℕ) (s1 s2 : ℕ) (_hs1 : 1 ≤ s1) (_hs2 : 1 ≤ s2)
    (hA : A.Pairwise (· < ·)) (hB : B.Pairwise (· < ·)) :
    intersect_with_skiplist A B s1 s2 = intersect_without_skiplist A B := by
  rw [intersect_with_skiplist,
    interSkipGo_eq A B s1 s2 hA hB (A.length + B.length) 0 0 (by omega),
    intersect_without_skiplist_eq A B, intersect_eq_filter A B hA hB]
  simp

/-- Concrete instance of claim C2 at A = [2,4,6,8,10,12], B = [3,4,8,12],
with skip steps 2 and 1. -/
theorem claim_C2_witness :
    intersect_with_skiplist [2,4,6,8,10,12] [3,4,8,12] 2 1 =
      intersect_without_skiplist [2,4,6,8,10,12] [3,4,8,12] :=
  claim_C2 [2,4,6,8,10,12] [3,4,8,12] 2 1 (by decide) (by decide)
    (by decide) (by decide)

/-- Claim C7: for strictly ascending document-id lists A and B,
union(difference(A, B), intersect(A, B)) equals A, and difference(A, B)
shares no element with intersect(A, B). -/
theorem claim_C7 (A B : List ℕ) (hA : A.Pairwise (· < ·))
    (hB : B.Pairwise (· < ·)) :
    union (difference A B) (intersect A B) = A ∧
      ∀ x, ¬(x ∈ difference A B ∧ x ∈ intersect A B) := by
  constructor
  · rw [difference_eq_filter A B hA hB, intersect_eq_filter A B hA hB]
    exact union_split_filter (fun a => decide (a ∈ B)) A hA
  · intro x ⟨hd, hi⟩
    rw [difference_eq_filter A B hA hB] at hd
    rw [intersect_eq_filter A B hA hB] at hi
    have h1 := List.of_mem_filter hd
    have h2 := List.of_mem_filter hi
    simp at h1 h2
    exact h1 h2

/-- Concrete instance of claim C7 at A = [1,2,3,5], B = [2,4,5]. -/
theorem claim_C7_witness :
    union (difference [1,2,3,5] [2,4,5]) (intersect [1,2,3,5] [2,4,5]) =
      [1,2,3,5] ∧
      ∀ x, ¬(x ∈ difference [1,2,3,5] [2,4,5] ∧
        x ∈ intersect [1,2,3,5] [2,4,5]) :=
  claim_C7 [1,2,3,5] [2,4,5] (by decide) (by decide)

/-! ## Positional phrase search (src/lab1/5_A_3.py)

The positional index {term: {doc: [positions]}} is embedded as an
association list over an arbitrary term type T with decidable equality
(terms are Python strings); Python dict lookup becomes lookupA.  Python
dicts compare extensionally, so search_with_positions — which returns a
dict {doc: valid_positions} — is embedded as the extensional map from a
document id to Option (List ℕ) (none encodes an absent key). -/

/-- Association-list lookup, embedding Python dict indexing. -/
def lookupA {α β : Type} [DecidableEq α] : List (α × β) → α → Option β
  | [], _ => none
  | (k, v) :: rest, key => if key = k then some v else lookupA rest key

/-- Document ids carrying a term t in the index (keys of index[t]). -/
def docsOf {T : Type} [DecidableEq T] (index : List (T × List (ℕ × List ℕ)))
    (t : T) : List ℕ :=
  ((lookupA index t).getD []).map (fun p => p.1)

/-- Position list of term t in document d (index[t][d], [] if absent). -/
def posOf {T : Type} [DecidableEq T] (index : List (T × List (ℕ × List ℕ)))
    (t : T) (d : ℕ) : List ℕ :=
  (lookupA ((lookupA index t).getD []) d).getD []

/-- Embeds verify_phrase_positions of src/lab1/5_A_3.py: returns [] when
fewer than two position lists are given, else the starting positions p of
the first list such that p + i lies in the i-th list for i = 1, ...,
len - 1 (the range(1, len(positions_list)) loop). -/
def verify_phrase_positions (pls : List (List ℕ)) : List ℕ :=
  if pls = [] ∨ pls.length < 2 then []
  else
    (pls.headD []).filter
      (fun start =>
        decide (∀ i, i < pls.length → 1 ≤ i → start + i ∈ pls.getD i []))

/-- Embeds search_with_positions of src/lab1/5_A_3.py as the extensional
mapping it returns: empty for an empty phrase or a term missing from the
index; otherwise a document d is mapped to verify_phrase_positions of its
per-term position lists when d carries every term and that list is
non-empty. -/
def search_with_positions {T : Type} [DecidableEq T]
    (index : List (T × List (ℕ × List ℕ))) (ts : List T) :
    ℕ → Option (List ℕ) :=
  fun d =>
    if ts = [] ∨ ¬ (∀ t ∈ ts, (lookupA index t).isSome) then none
    else if ∀ t ∈ ts, d ∈ docsOf index t then
      if verify_phrase_positions (ts.map (fun t => posOf index t d)) = []
      then none
      else some (verify_phrase_positions (ts.map (fun t => posOf index t d)))
    else none

/-- Modelled from the claim wording of C4 (phrase-verifier contract): the
chain condition asks p + i to lie in the (i+1)-th position list for every
i in 0..k-1, with no special case for single-term phrases. -/
def chain_positions (pls : List (List ℕ)) : List ℕ :=
  (pls.headD []).filter
    (fun p => decide (∀ i, i < pls.length → p + i ∈ pls.getD i []))

/-- Claimed version of search_with_positions per C4: identical guards, but
keeps a document when at least one starting position satisfies the full
chain over all k terms (including the k = 1 case). -/
def search_claimed {T : Type} [DecidableEq T]
    (index : List (T × List (ℕ × List ℕ))) (ts : List T) :
    ℕ → Option (List ℕ) :=
  fun d =>
    if ts = [] ∨ ¬ (∀ t ∈ ts, (lookupA index t).isSome) then none
    else if ∀ t ∈ ts, d ∈ docsOf index t then
      if chain_positions (ts.map (fun t => posOf index t d)) = []
      then none
      else some (chain_positions (ts.map (fun t => posOf index t d)))
    else none

theorem verify_eq_chain (pls : List (List ℕ)) (h : 2 ≤ pls.length) :
    verify_phrase_positions pls = chain_positions pls := by
  cases pls with
  | nil => simp at h
  | cons a rest =>
    rw [verify_phrase_positions,
      if_neg (by
        simp only [List.length_cons]
        push_neg
        exact ⟨List.cons_ne_nil a rest, by simp at h ⊢; omega⟩),
      chain_positions]
    apply List.filter_congr
    intro p hp
    rw [decide_eq_decide]
    constructor
    · intro hall i hi
      rcases Nat.eq_zero_or_pos i with h0 | h1
      · subst h0
        simpa using hp
      · exact hall i hi h1
    · intro hall i hi _
      exact hall i hi

/-- Claim C4 counterexample: a positional index with the single term 0
occurring in document 1 at position 0.  The claimed contract maps document
1 to its full position list [0] (the chain over k = 1 terms is trivially
satisfied), but search_with_positions returns an empty mapping because
verify_phrase_positions rejects phrases of fewer than two terms. -/
theorem claim_C4_counterexample :
    search_with_positions [((0 : ℕ), [(1, [0])])] [0] 1 = none ∧
      search_claimed [((0 : ℕ), [(1, [0])])] [0] 1 = some [0] := by
  constructor
  · decide
  · decide

/-- Claim C4 (amended to phrases of at least two terms): for every phrase
of k ≥ 2 terms, search_with_positions returns exactly the claimed mapping
sending each document that carries all k terms and has a starting position
p with p + i in the (i+1)-th term's position list for all i < k to the
list of all such starting positions, and omitting every other document. -/
theorem claim_C4 {T : Type} [DecidableEq T]
    (index : List (T × List (ℕ × List ℕ))) (ts : List T)
    (h : 2 ≤ ts.length) :
    search_with_positions index ts = search_claimed index ts := by
  funext d
  rw [search_with_positions, search_claimed,
    verify_eq_chain (ts.map (fun t => posOf index t d)) (by simpa using h)]

/-- Concrete instance of claim C4 for the two-term phrase [0, 1] in an
index where document 1 contains term 0 at positions 0 and 5 and term 1 at
position 1. -/
theorem claim_C4_witness :
    search_with_positions [((0 : ℕ), [(1, [0, 5])]), (1, [(1, [1])])]
        [0, 1] =
      search_claimed [((0 : ℕ), [(1, [0, 5])]), (1, [(1, [1])])] [0, 1] :=
  claim_C4 [((0 : ℕ), [(1, [0, 5])]), (1, [(1, [1])])] [0, 1] (by decide)

/-! ## UTF-8 codec layer (used by both binary dictionary codecs)

Python encodes terms with str.encode("utf-8") and decodes stored term
bytes with bytes.decode("utf-8") — strict, raising UnicodeDecodeError on
ill-formed input — or, in blocking_decompressed's except branch, with
errors="replace".  Bytes are ℕ below 256 and code points are ℕ; the
bit-field layout of UTF-8 is written with division and remainder by
powers of two.  The strict decoder performs CPython's full validation
(continuation-byte ranges, overlong forms, surrogates, the 0x10FFFF cap).
The replacing decoder substitutes U+FFFD for an ill-formed leading byte
and resumes one byte later; this coincides with CPython for the
single-byte ill-formed sequences exercised here. -/

/-- Unicode scalar values: what a Python str stores and str.encode
accepts (surrogates excluded). -/
def ValidScalar (c : ℕ) : Prop := c < 0x110000 ∧ ¬(0xD800 ≤ c ∧ c < 0xE000)

instance : DecidablePred ValidScalar := fun c => by
  rw [ValidScalar]
  infer_instance

/-- UTF-8 encoding of one scalar (div/mod form of the bit layout). -/
def utf8EncodeChar (c : ℕ) : List ℕ :=
  if c < 0x80 then [c]
  else if c < 0x800 then [0xC0 + c / 64, 0x80 + c % 64]
  else if c < 0x10000 then
    [0xE0 + c / 4096, 0x80 + c / 64 % 64, 0x80 + c % 64]
  else
    [0xF0 + c / 262144, 0x80 + c / 4096 % 64, 0x80 + c / 64 % 64,
      0x80 + c % 64]

/-- str.encode("utf-8") on a list of code points. -/
def utf8Encode (s : List ℕ) : List ℕ := (s.map utf8EncodeChar).flatten

/-- Continuation byte test: 0x80 ≤ b ≤ 0xBF. -/
def isCont (b : ℕ) : Prop := 0x80 ≤ b ∧ b ≤ 0xBF

instance : DecidablePred isCont := fun b => by
  rw [isCont]
  infer_instance

/-- Lower bound of the accepted second-byte window after leading byte b
(CPython tightens it to 0xA0 after 0xE0 and 0x90 after 0xF0 to reject
overlong forms). -/
def sndLo (b : ℕ) : ℕ := if b = 0xE0 then 0xA0 else if b = 0xF0 then 0x90 else 0x80

/-- Upper bound of the accepted second-byte window after leading byte b
(CPython tightens it to 0x9F after 0xED to reject surrogates and to 0x8F
after 0xF4 to cap at U+10FFFF). -/
def sndHi (b : ℕ) : ℕ := if b = 0xED then 0x9F else if b = 0xF4 then 0x8F else 0xBF

/-- One step of the strict UTF-8 decoder: decode the scalar starting at
byte b (with the following bytes in rest) and report how many
continuation bytes it consumed, or none for an ill-formed prefix.
Matches CPython's accepted ranges: C2-DF leading bytes for two-byte
forms, and the sndLo/sndHi second-byte windows for longer forms. -/
def utf8Step (b : ℕ) (rest : List ℕ) : Option (ℕ × ℕ) :=
  if b < 0x80 then some (b, 0)
  else if 0xC2 ≤ b ∧ b ≤ 0xDF then
    if 1 ≤ rest.length ∧ isCont (rest.getD 0 0) then
      some ((b - 0xC0) * 64 + (rest.getD 0 0 - 0x80), 1)
    else none
  else if 0xE0 ≤ b ∧ b ≤ 0xEF then
    if 2 ≤ rest.length ∧ sndLo b ≤ rest.getD 0 0 ∧ rest.getD 0 0 ≤ sndHi b ∧
        isCont (rest.getD 1 0) then
      some ((b - 0xE0) * 4096 + (rest.getD 0 0 - 0x80) * 64 +
        (rest.getD 1 0 - 0x80), 2)
    else none
  else if 0xF0 ≤ b ∧ b ≤ 0xF4 then
    if 3 ≤ rest.length ∧ sndLo b ≤ rest.getD 0 0 ∧ rest.getD 0 0 ≤ sndHi b ∧
        isCont (rest.getD 1 0) ∧ isCont (rest.getD 2 0) then
      some ((b - 0xF0) * 262144 + (rest.getD 0 0 - 0x80) * 4096 +
        (rest.getD 1 0 - 0x80) * 64 + (rest.getD 2 0 - 0x80), 3)
    else none
  else none

/-- bytes.decode("utf-8"): strict; none embeds UnicodeDecodeError. -/
def utf8Decode : List ℕ → Option (List ℕ)
  | [] => some []
  | b :: rest =>
    match utf8Step b rest with
    | some (c, k) => (utf8Decode (rest.drop k)).map (fun s => c :: s)
    | none => none
termination_by l => l.length
decreasing_by
  simp only [List.length_drop, List.length_cons]
  omega

/-- bytes.decode("utf-8", errors="replace"): total, substituting U+FFFD
at an ill-formed leading byte and resuming after it. -/
def utf8DecodeReplace : List ℕ → List ℕ
  | [] => []
  | b :: rest =>
    match utf8Step b rest with
    | some (c, k) => c :: utf8DecodeReplace (rest.drop k)
    | none => 0xFFFD :: utf8DecodeReplace rest
termination_by l => l.length
decreasing_by
  · simp only [List.length_drop, List.length_cons]
    omega
  · simp only [List.length_cons]
    omega

theorem utf8EncodeChar_length_pos (c : ℕ) :
    1 ≤ (utf8EncodeChar c).length := by
  rw [utf8EncodeChar]
  split_ifs <;> simp

theorem utf8Encode_length_ge (s : List ℕ) :
    s.length ≤ (utf8Encode s).length := by
  induction s with
  | nil => simp [utf8Encode]
  | cons c cs ih =>
    have := utf8EncodeChar_length_pos c
    simp only [utf8Encode, List.map_cons, List.flatten_cons,
      List.length_append, List.length_cons] at *
    omega

theorem utf8Decode_cons_step (b : ℕ) (rest : List ℕ) (c k : ℕ)
    (h : utf8Step b rest = some (c, k)) :
    utf8Decode (b :: rest) = (utf8Decode (rest.drop k)).map (fun s => c :: s) := by
  rw [utf8Decode, h]

theorem utf8Decode_encodeChar (c : ℕ) (h : ValidScalar c) (rest : List ℕ) :
    utf8Decode (utf8EncodeChar c ++ rest) =
      (utf8Decode rest).map (fun s => c :: s) := by
  obtain ⟨hlt, hsur⟩ := h
  by_cases h1 : c < 0x80
  · rw [utf8EncodeChar, if_pos h1]
    simp only [List.cons_append, List.nil_append]
    rw [utf8Decode_cons_step c rest c 0 (by rw [utf8Step, if_pos h1]),
      List.drop_zero]
  · by_cases h2 : c < 0x800
    · rw [utf8EncodeChar, if_neg h1, if_pos h2]
      simp only [List.cons_append, List.nil_append]
      have hstep : utf8Step (0xC0 + c / 64) ((0x80 + c % 64) :: rest) =
          some (c, 1) := by
        rw [utf8Step, if_neg (by omega), if_pos (by omega)]
        rw [if_pos (by
          simp only [List.length_cons, List.getD_cons_zero, isCont]
          omega)]
        simp only [List.getD_cons_zero]
        have hval : (0xC0 + c / 64 - 0xC0) * 64 + (0x80 + c % 64 - 0x80)
            = c := by omega
        rw [hval]
      rw [utf8Decode_cons_step _ _ c 1 hstep]
      simp only [List.drop_succ_cons, List.drop_zero]
    · by_cases h3 : c < 0x10000
      · rw [utf8EncodeChar, if_neg h1, if_neg h2, if_pos h3]
        simp only [List.cons_append, List.nil_append]
        have hstep : utf8Step (0xE0 + c / 4096)
            ((0x80 + c / 64 % 64) :: (0x80 + c % 64) :: rest) =
            some (c, 2) := by
          rw [utf8Step, if_neg (by omega), if_neg (by omega),
            if_pos (by omega)]
          rw [if_pos (by
            simp only [List.length_cons, List.getD_cons_zero,
              List.getD_cons_succ, sndLo, sndHi, isCont]
            split_ifs <;> omega)]
          simp only [List.getD_cons_zero, List.getD_cons_succ]
          have hval : (0xE0 + c / 4096 - 0xE0) * 4096 +
              (0x80 + c / 64 % 64 - 0x80) * 64 + (0x80 + c % 64 - 0x80)
              = c := by omega
          rw [hval]
        rw [utf8Decode_cons_step _ _ c 2 hstep]
        simp only [List.drop_succ_cons, List.drop_zero]
      · rw [utf8EncodeChar, if_neg h1, if_neg h2, if_neg h3]
        simp only [List.cons_append, List.nil_append]
        have hstep : utf8Step (0xF0 + c / 262144)
            ((0x80 + c / 4096 % 64) :: (0x80 + c / 64 % 64) ::
              (0x80 + c % 64) :: rest) = some (c, 3) := by
          rw [utf8Step, if_neg (by omega), if_neg (by omega),
            if_neg (by omega), if_pos (by omega)]
          rw [if_pos (by
            simp only [List.length_cons, List.getD_cons_zero,
              List.getD_cons_succ, sndLo, sndHi, isCont]
            split_ifs <;> omega)]
          simp only [List.getD_cons_zero, List.getD_cons_succ]
          have hval : (0xF0 + c / 262144 - 0xF0) * 262144 +
              (0x80 + c / 4096 % 64 - 0x80) * 4096 +
              (0x80 + c / 64 % 64 - 0x80) * 64 + (0x80 + c % 64 - 0x80)
              = c := by omega
          rw [hval]
        rw [utf8Decode_cons_step _ _ c 3 hstep]
        simp only [List.drop_succ_cons, List.drop_zero]

theorem utf8Decode_encode (s : List ℕ) (h : ∀ c ∈ s, ValidScalar c) :
    utf8Decode (utf8Encode s) = some s := by
  induction s with
  | nil => simp [utf8Encode, utf8Decode]
  | cons c cs ih =>
    have hc : ValidScalar c := h c (List.mem_cons_self c cs)
    have hcs := ih (fun x hx => h x (List.mem_cons_of_mem c hx))
    show utf8Decode ((utf8EncodeChar c :: cs.map utf8EncodeChar).flatten) = _
    rw [List.flatten_cons]
    rw [utf8Decode_encodeChar c hc]
    rw [show (cs.map utf8EncodeChar).flatten = utf8Encode cs from rfl, hcs]
    rfl

/-! ## Front-coded binary dictionary (src/4_2_1.py)

Terms are lists of code points (Python str); the dictionary sorted by key
becomes a list of (term, offset, length) entries whose term components are
strictly ascending in Python string order (lexLt).  front_coding_binary
walks the sorted entries in blocks of block_size, writing the block head
in full with prefix_len 0 and every later record as (prefix length with
the block base in characters, suffix byte length, UTF-8 suffix bytes,
offset and length as little-endian u32).  struct.pack("B", ...) and
struct.pack("<II", ...) raise on out-of-range values rather than
truncating, so the round-trip theorem hypothesizes the packed values fit
(suffix bytes ≤ 255, offset and length < 2^32).  front_coding_decode scans
records sequentially, resetting base at each prefix_len-0 record; the
strict utf8Decode embeds its suffix.decode("utf-8"), and none embeds any
raised struct/Unicode error. -/

/-- Embeds common_prefix_len of src/4_2_1.py (character count over the
zipped strings). -/
def common_prefix_len : List ℕ → List ℕ → ℕ
  | x :: xs, y :: ys => if x = y then common_prefix_len xs ys + 1 else 0
  | _, _ => 0

/-- struct.pack("<I", x): four little-endian bytes. -/
def le32 (x : ℕ) : List ℕ :=
  [x % 256, x / 256 % 256, x / 65536 % 256, x / 16777216 % 256]

/-- struct.unpack_from("<I", ...): read four little-endian bytes. -/
def read32 (bs : List ℕ) : ℕ :=
  bs.getD 0 0 + bs.getD 1 0 * 256 + bs.getD 2 0 * 65536 +
    bs.getD 3 0 * 16777216

theorem le32_length (x : ℕ) : (le32 x).length = 4 := rfl

theorem read32_le32_append (x : ℕ) (hx : x < 2 ^ 32) (r : List ℕ) :
    read32 (le32 x ++ r) = x := by
  simp only [le32, read32, List.cons_append, List.getD_cons_zero,
    List.getD_cons_succ]
  omega

/-- Python string comparison on code-point lists (strict less-than). -/
def lexLt : List ℕ → List ℕ → Bool
  | [], [] => false
  | [], _ :: _ => true
  | _ :: _, [] => false
  | x :: xs, y :: ys =>
    if x < y then true else if y < x then false else lexLt xs ys

/-- One record of the front-coded file:
[prefix_len:u8][suffix_len:u8][suffix bytes][offset:u32][length:u32]. -/
def encEntry (p : ℕ) (sfx : List ℕ) (o l : ℕ) : List ℕ :=
  p :: sfx.length :: (sfx ++ le32 o ++ le32 l)

/-- Records of a block after its head: each term is encoded relative to
the block base bt. -/
def encTail (bt : List ℕ) (ts : List (List ℕ × ℕ × ℕ)) : List ℕ :=
  (ts.map (fun e =>
    encEntry (common_prefix_len bt e.1)
      (utf8Encode (e.1.drop (common_prefix_len bt e.1))) e.2.1 e.2.2)).flatten

/-- One block: full head record (prefix_len 0), then the tail records. -/
def encBlock : List (List ℕ × ℕ × ℕ) → List ℕ
  | [] => []
  | (t, o, l) :: rest => encEntry 0 (utf8Encode t) o l ++ encTail t rest

/-- Embeds front_coding_binary of src/4_2_1.py on the pre-sorted entry
list (the source sorts the JSON dictionary keys before this loop). -/
def front_coding_binary (entries : List (List ℕ × ℕ × ℕ)) (bs : ℕ) :
    List ℕ :=
  if h : entries ≠ [] ∧ 1 ≤ bs then
    encBlock (entries.take bs) ++ front_coding_binary (entries.drop bs) bs
  else []
termination_by entries.length
decreasing_by
  have := List.length_pos.2 h.1
  simp only [List.length_drop]
  omega

/-- Embeds the while loop of front_coding_decode with its running base:
reads prefix_len and suffix_len, slices and strictly decodes the suffix,
reads offset and length, appends the reconstructed triple and loops.
none embeds a raised IndexError / struct.error / UnicodeDecodeError. -/
def fcLoop : List ℕ → List ℕ → Option (List (List ℕ × ℕ × ℕ))
  | [], _ => some []
  | [_], _ => none
  | p :: s :: rest, base =>
    match utf8Decode (rest.take s) with
    | none => none
    | some suf =>
      if 8 ≤ (rest.drop s).length then
        (fcLoop ((rest.drop s).drop 8) (if p = 0 then suf else base)).map
          (fun res =>
            ((if p = 0 then suf else base.take p ++ suf),
              read32 (rest.drop s), read32 ((rest.drop s).drop 4)) :: res)
      else none
termination_by data _ => data.length
decreasing_by
  simp only [List.length_drop, List.length_cons]
  omega

/-- Embeds front_coding_decode of src/4_2_1.py (initial base ""). -/
def front_coding_decode (data : List ℕ) :
    Option (List (List ℕ × ℕ × ℕ)) :=
  fcLoop data []

/-- A term a Python str can hold and this codec can pack: scalar code
points whose UTF-8 form fits the one-byte suffix_len field. -/
def ValidTerm (t : List ℕ) : Prop :=
  (∀ c ∈ t, ValidScalar c) ∧ (utf8Encode t).length ≤ 255

/-- Entry whose term is packable and whose offset and length fit u32. -/
def ValidEntry (e : List ℕ × ℕ × ℕ) : Prop :=
  ValidTerm e.1 ∧ e.2.1 < 2 ^ 32 ∧ e.2.2 < 2 ^ 32

instance : DecidablePred ValidTerm := fun t => by
  rw [ValidTerm]
  infer_instance

instance : DecidablePred ValidEntry := fun e => by
  rw [ValidEntry]
  infer_instance

theorem fcLoop_cons_some (p s : ℕ) (rest base suf : List ℕ)
    (hdec : utf8Decode (rest.take s) = some suf)
    (hlen : 8 ≤ (rest.drop s).length) :
    fcLoop (p :: s :: rest) base =
      (fcLoop ((rest.drop s).drop 8) (if p = 0 then suf else base)).map
        (fun res =>
          ((if p = 0 then suf else base.take p ++ suf),
            read32 (rest.drop s), read32 ((rest.drop s).drop 4)) :: res) := by
  rw [fcLoop, hdec]
  exact if_pos hlen

theorem fcLoop_encEntry (p : ℕ) (sfx suf : List ℕ)
    (hdec : utf8Decode sfx = some suf) (o l : ℕ)
    (ho : o < 2 ^ 32) (hl : l < 2 ^ 32) (more base : List ℕ) :
    fcLoop (encEntry p sfx o l ++ more) base =
      (fcLoop more (if p = 0 then suf else base)).map
        (fun res =>
          ((if p = 0 then suf else base.take p ++ suf), o, l) :: res) := by
  have hshape : encEntry p sfx o l ++ more =
      p :: sfx.length :: (sfx ++ (le32 o ++ (le32 l ++ more))) := by
    simp [encEntry, List.append_assoc]
  have htake : (sfx ++ (le32 o ++ (le32 l ++ more))).take sfx.length = sfx :=
    List.take_left sfx _
  have hdrop : (sfx ++ (le32 o ++ (le32 l ++ more))).drop sfx.length =
      le32 o ++ (le32 l ++ more) :=
    List.drop_left sfx _
  have hdrop4 : (le32 o ++ (le32 l ++ more)).drop 4 = le32 l ++ more := by
    rw [show (4 : ℕ) = (le32 o).length from rfl, List.drop_left]
  have hdrop8 : (le32 o ++ (le32 l ++ more)).drop 8 = more := by
    rw [show (8 : ℕ) = 4 + 4 from rfl, ← List.drop_drop, hdrop4,
      show (4 : ℕ) = (le32 l).length from rfl, List.drop_left]
  have hlen8 : 8 ≤ ((sfx ++ (le32 o ++ (le32 l ++ more))).drop
      sfx.length).length := by
    rw [hdrop]
    simp [le32]
  rw [hshape, fcLoop_cons_some p sfx.length _ base suf
    (by rw [htake]; exact hdec) hlen8, hdrop, hdrop4, hdrop8,
    read32_le32_append o ho, read32_le32_append l hl]

theorem common_prefix_len_take : ∀ (a b : List ℕ),
    a.take (common_prefix_len a b) = b.take (common_prefix_len a b)
  | [], b => by simp [common_prefix_len]
  | _ :: _, [] => by simp [common_prefix_len]
  | x :: xs, y :: ys => by
    rw [common_prefix_len]
    by_cases h : x = y
    · rw [if_pos h, List.take_succ_cons, List.take_succ_cons,
        common_prefix_len_take xs ys, h]
    · rw [if_neg h]
      simp

theorem lexLt_nil_right (t : List ℕ) : lexLt t [] = false := by
  cases t <;> simp [lexLt]

theorem lexLt_head_le {x y : ℕ} {xs ys : List ℕ}
    (h : lexLt (x :: xs) (y :: ys) = true) : x ≤ y := by
  rw [lexLt] at h
  split_ifs at h <;> omega

theorem cpl_zero_of_between (bt cur t : List ℕ)
    (h0 : common_prefix_len bt cur = 0) (hbt : lexLt bt cur = true)
    (hct : lexLt cur t = true) : common_prefix_len bt t = 0 := by
  cases bt with
  | nil => cases t <;> simp [common_prefix_len]
  | cons x bts =>
    cases cur with
    | nil =>
      rw [lexLt_nil_right] at hbt
      exact absurd hbt (by simp)
    | cons y cs =>
      have hxy : x ≤ y := lexLt_head_le hbt
      have hxney : x ≠ y := by
        intro he
        rw [common_prefix_len, if_pos he] at h0
        omega
      cases t with
      | nil =>
        rw [lexLt_nil_right] at hct
        exact absurd hct (by simp)
      | cons z zs =>
        have hyz : y ≤ z := lexLt_head_le hct
        rw [common_prefix_len, if_neg (by omega)]

theorem fcLoop_encTail (bt : List ℕ) (ts : List (List ℕ × ℕ × ℕ)) :
    ∀ base more,
      (∀ e ∈ ts, ValidEntry e) →
      (ts.map (fun e => e.1)).Pairwise (fun a b => lexLt a b = true) →
      (∀ e ∈ ts, lexLt bt e.1 = true) →
      (∀ e ∈ ts, base.take (common_prefix_len bt e.1) =
        bt.take (common_prefix_len bt e.1)) →
      ∃ base2, fcLoop (encTail bt ts ++ more) base =
        (fcLoop more base2).map (fun res => ts ++ res) := by
  induction ts with
  | nil =>
    intro base more _ _ _ _
    refine ⟨base, ?_⟩
    have hnil : encTail bt [] = [] := by simp [encTail]
    rw [hnil, List.nil_append]
    cases fcLoop more base <;> rfl
  | cons e ts2 ih =>
    intro base more hV hP hBt hInv
    obtain ⟨t, o, l⟩ := e
    simp only [List.map_cons] at hP
    have hET : encTail bt ((t, o, l) :: ts2) =
        encEntry (common_prefix_len bt t)
          (utf8Encode (t.drop (common_prefix_len bt t))) o l ++
          encTail bt ts2 := by
      simp [encTail]
    have hVe : ValidEntry (t, o, l) := hV _ (List.mem_cons_self _ _)
    have hdec : utf8Decode (utf8Encode (t.drop (common_prefix_len bt t))) =
        some (t.drop (common_prefix_len bt t)) :=
      utf8Decode_encode _ (fun c hc => hVe.1.1 c (List.mem_of_mem_drop hc))
    rw [hET, List.append_assoc,
      fcLoop_encEntry _ _ _ hdec o l hVe.2.1 hVe.2.2 _ base]
    set p := common_prefix_len bt t with hpdef
    have hterm : (if p = 0 then t.drop p else base.take p ++ t.drop p)
        = t := by
      by_cases hp : p = 0
      · rw [if_pos hp, hp, List.drop_zero]
      · rw [if_neg hp]
        have h1 : base.take p = bt.take p := hInv _ (List.mem_cons_self _ _)
        have h2 : bt.take p = t.take p := by
          have h3 := common_prefix_len_take bt t
          rw [← hpdef] at h3
          exact h3
        rw [h1, h2, List.take_append_drop]
    have hbase2 : ∀ e2 ∈ ts2,
        (if p = 0 then t.drop p else base).take
            (common_prefix_len bt e2.1) =
          bt.take (common_prefix_len bt e2.1) := by
      intro e2 he
      by_cases hp : p = 0
      · have hcpl0 : common_prefix_len bt t = 0 := by
          rw [← hpdef]
          exact hp
        have h0 : common_prefix_len bt e2.1 = 0 :=
          cpl_zero_of_between bt t e2.1 hcpl0
            (hBt _ (List.mem_cons_self _ _))
            ((List.pairwise_cons.1 hP).1 e2.1 (List.mem_map_of_mem _ he))
        rw [h0]
        simp
      · rw [if_neg hp]
        exact hInv e2 (List.mem_cons_of_mem _ he)
    obtain ⟨base2, hrec⟩ := ih (if p = 0 then t.drop p else base) more
      (fun e2 he => hV e2 (List.mem_cons_of_mem _ he))
      (List.pairwise_cons.1 hP).2
      (fun e2 he => hBt e2 (List.mem_cons_of_mem _ he))
      hbase2
    refine ⟨base2, ?_⟩
    rw [hrec, hterm]
    cases fcLoop more base2 <;> rfl

theorem fcLoop_encBlock (blk : List (List ℕ × ℕ × ℕ)) (hne : blk ≠ [])
    (hV : ∀ e ∈ blk, ValidEntry e)
    (hP : (blk.map (fun e => e.1)).Pairwise (fun a b => lexLt a b = true)) :
    ∀ base more, ∃ base2,
      fcLoop (encBlock blk ++ more) base =
        (fcLoop more base2).map (fun res => blk ++ res) := by
  intro base more
  cases blk with
  | nil => exact absurd rfl hne
  | cons e rest =>
    obtain ⟨t, o, l⟩ := e
    simp only [List.map_cons] at hP
    have hVe : ValidEntry (t, o, l) := hV _ (List.mem_cons_self _ _)
    have hdec : utf8Decode (utf8Encode t) = some t :=
      utf8Decode_encode t hVe.1.1
    rw [encBlock, List.append_assoc,
      fcLoop_encEntry 0 _ _ hdec o l hVe.2.1 hVe.2.2 _ base]
    have h00 : (0 : ℕ) = 0 := rfl
    rw [if_pos h00, if_pos h00]
    obtain ⟨base2, hrec⟩ := fcLoop_encTail t rest t more
      (fun e2 he => hV e2 (List.mem_cons_of_mem _ he))
      (List.pairwise_cons.1 hP).2
      (fun e2 he =>
        (List.pairwise_cons.1 hP).1 e2.1 (List.mem_map_of_mem _ he))
      (fun e2 _ => rfl)
    refine ⟨base2, ?_⟩
    rw [hrec]
    cases fcLoop more base2 <;> rfl

theorem fcLoop_blocks (bs : ℕ) (hbs : 1 ≤ bs) :
    ∀ (N : ℕ) (entries : List (List ℕ × ℕ × ℕ)), entries.length ≤ N →
      (∀ e ∈ entries, ValidEntry e) →
      ((entries.map (fun e => e.1)).Pairwise
        (fun a b => lexLt a b = true)) →
      ∀ base, fcLoop (front_coding_binary entries bs) base = some entries := by
  intro N
  induction N with
  | zero =>
    intro entries hlen hV hP base
    have hnil : entries = [] := List.eq_nil_of_length_eq_zero (by omega)
    subst hnil
    rw [front_coding_binary, dif_neg (by simp), fcLoop]
  | succ N ih =>
    intro entries hlen hV hP base
    by_cases hne : entries = []
    · subst hne
      rw [front_coding_binary, dif_neg (by simp), fcLoop]
    · rw [front_coding_binary, dif_pos ⟨hne, hbs⟩]
      have hpos : 0 < entries.length := List.length_pos.2 hne
      have htne : entries.take bs ≠ [] := by
        intro hcon
        have hlen2 := congrArg List.length hcon
        simp only [List.length_take, List.length_nil] at hlen2
        omega
      obtain ⟨base2, hrec⟩ := fcLoop_encBlock (entries.take bs) htne
        (fun e he => hV e (List.mem_of_mem_take he))
        (List.Pairwise.sublist ((List.take_sublist bs entries).map _) hP)
        base (front_coding_binary (entries.drop bs) bs)
      rw [hrec, ih (entries.drop bs)
        (by
          simp only [List.length_drop]
          omega)
        (fun e he => hV e (List.mem_of_mem_drop he))
        (List.Pairwise.sublist ((List.drop_sublist bs entries).map _) hP)
        base2]
      simp [List.take_append_drop]

/-- Claim C1: for every dictionary given as a list of (term, offset,
length) entries with terms strictly ascending in Python string order,
terms whose UTF-8 encodings fit the one-byte suffix_len field (≤ 255
bytes), offsets and lengths below 2^32, and any block size ≥ 1, decoding
the front-coded file reproduces the entries byte-exactly, in order. -/
theorem claim_C1 (entries : List (List ℕ × ℕ × ℕ)) (bs : ℕ) (hbs : 1 ≤ bs)
    (hV : ∀ e ∈ entries, ValidEntry e)
    (hsort : (entries.map (fun e => e.1)).Pairwise
      (fun a b => lexLt a b = true)) :
    front_coding_decode (front_coding_binary entries bs) = some entries :=
  fcLoop_blocks bs hbs entries.length entries le_rfl hV hsort []

/-- Concrete instance of claim C1 on a three-entry dictionary (terms "a",
"ab", "b" as code points) with block size 2. -/
theorem claim_C1_witness :
    front_coding_decode
        (front_coding_binary [([97], 5, 7), ([97, 98], 9, 3), ([98], 1, 2)]
          2) =
      some [([97], 5, 7), ([97, 98], 9, 3), ([98], 1, 2)] :=
  claim_C1 [([97], 5, 7), ([97, 98], 9, 3), ([98], 1, 2)] 2 (by decide)
    (by decide) (by decide)

/-! ## Blocking binary dictionary (src/4_2_2.py)

blocking_compressed walks the sorted terms with range(0, T, block_size)
but slices groups with the literal terms[i:i+4]; it is embedded at its
default (and only coherent) block_size = 4, unrolling the fixed
for-i-in-range(4) slot loop.  Each group chunk stores four length-prefixed
(2-byte little-endian) UTF-8 term slots padded with empty strings, one
offset (the first term's), and the lengths of at most the first three
terms zero-padded to three u32 fields, preceded by a 4-byte chunk length.
blocking_decompressed reads chunks sequentially; term bytes are decoded
strictly and re-decoded with errors="replace" on UnicodeDecodeError
(mirrored exactly by falling back to utf8DecodeReplace), while a short
read at a struct.unpack embeds as none. -/

/-- struct.pack("<H", x): two little-endian bytes. -/
def le16 (x : ℕ) : List ℕ := [x % 256, x / 256 % 256]

/-- struct.unpack("<H", ...): read two little-endian bytes. -/
def read16 (bs : List ℕ) : ℕ := bs.getD 0 0 + bs.getD 1 0 * 256

theorem read16_le16_append (x : ℕ) (hx : x < 2 ^ 16) (r : List ℕ) :
    read16 (le16 x ++ r) = x := by
  simp only [le16, read16, List.cons_append, List.getD_cons_zero,
    List.getD_cons_succ]
  omega

/-- One term slot of a group chunk: 2-byte length then UTF-8 bytes; slot
k of the group's term list, an empty string when the group is short. -/
def slot (ts : List (List ℕ)) (k : ℕ) : List ℕ :=
  le16 (utf8Encode (ts.getD k [])).length ++ utf8Encode (ts.getD k [])

/-- The binary payload of one group (the for-i-in-range(4) slot loop
unrolled), then the first term's offset and the ≤ 3 lengths padded with
zeros to exactly three u32 fields. -/
def blockChunk (g : List (List ℕ × ℕ × ℕ)) : List ℕ :=
  slot (g.map (fun e => e.1)) 0 ++ (slot (g.map (fun e => e.1)) 1 ++
    (slot (g.map (fun e => e.1)) 2 ++ (slot (g.map (fun e => e.1)) 3 ++
    (le32 ((g.map (fun e => e.2.1)).getD 0 0) ++
    (((g.take 3).map (fun e => le32 e.2.2)).flatten ++
      (List.replicate (3 - (g.take 3).length) (le32 0)).flatten)))))

/-- Embeds blocking_compressed of src/4_2_2.py at its default
block_size = 4 on the pre-sorted entry list: each group chunk is written
after its 4-byte length header. -/
def blocking_compressed (entries : List (List ℕ × ℕ × ℕ)) : List ℕ :=
  if h : entries ≠ [] then
    (le32 (blockChunk (entries.take 4)).length ++ blockChunk (entries.take 4))
      ++ blocking_compressed (entries.drop 4)
  else []
termination_by entries.length
decreasing_by
  have := List.length_pos.2 h
  simp only [List.length_drop]
  omega

/-- A decoded group record of blocking_decompressed. -/
structure BlockGroup where
  terms : List (List ℕ)
  offset : ℕ
  lengths : List ℕ
deriving DecidableEq

/-- Embeds the four iterations of the term-reading loop of
blocking_decompressed: each reads a 2-byte length (none if fewer than two
bytes remain, as struct.unpack raises), takes that many term bytes (a
short buf.read simply yields fewer), and decodes them strictly, falling
back to errors="replace" on failure. -/
def parseTerms : ℕ → List ℕ → Option (List (List ℕ) × List ℕ)
  | 0, bs => some ([], bs)
  | k + 1, bs =>
    if 2 ≤ bs.length then
      (parseTerms k ((bs.drop 2).drop (read16 bs))).map
        (fun r =>
          ((match utf8Decode ((bs.drop 2).take (read16 bs)) with
            | some s => s
            | none => utf8DecodeReplace ((bs.drop 2).take (read16 bs)))
            :: r.1, r.2))
    else none

/-- Embeds the per-chunk body of blocking_decompressed: four term slots,
then the offset and the three length fields (none when the chunk is too
short for the struct.unpack reads). -/
def parseGroup (bs : List ℕ) : Option BlockGroup :=
  (parseTerms 4 bs).bind (fun r =>
    if 16 ≤ r.2.length then
      some ⟨r.1, read32 r.2,
        [read32 (r.2.drop 4), read32 (r.2.drop 8), read32 (r.2.drop 12)]⟩
    else none)

/-- Embeds the chunk-reading while loop of blocking_decompressed: an
empty remainder ends the scan; a non-empty remainder shorter than the
4-byte header, or a failed group parse, embeds a raised struct error. -/
def blocking_decompressed (data : List ℕ) : Option (List BlockGroup) :=
  if data = [] then some []
  else if 4 ≤ data.length then
    (parseGroup ((data.drop 4).take (read32 data))).bind (fun g =>
      (blocking_decompressed ((data.drop 4).drop (read32 data))).map
        (fun gs => g :: gs))
  else none
termination_by data.length
decreasing_by
  simp only [List.length_drop]
  omega

/-- The groups the C9 claim predicts: the j-th run of four sorted terms
padded with empty strings, the run's first offset, and the first ≤ 3
lengths padded with zeros to three entries. -/
def expected_groups (entries : List (List ℕ × ℕ × ℕ)) : List BlockGroup :=
  if entries = [] then []
  else
    ⟨[(entries.take 4).map (fun e => e.1) |>.getD 0 [],
      (entries.take 4).map (fun e => e.1) |>.getD 1 [],
      (entries.take 4).map (fun e => e.1) |>.getD 2 [],
      (entries.take 4).map (fun e => e.1) |>.getD 3 []],
      ((entries.take 4).map (fun e => e.2.1)).getD 0 0,
      [((entries.take 4).take 3).map (fun e => e.2.2) |>.getD 0 0,
       ((entries.take 4).take 3).map (fun e => e.2.2) |>.getD 1 0,
       ((entries.take 4).take 3).map (fun e => e.2.2) |>.getD 2 0]⟩ ::
      expected_groups (entries.drop 4)
termination_by entries.length
decreasing_by
  have := List.length_pos.2 (by assumption)
  simp only [List.length_drop]
  omega

/-- Entry whose term survives the 2-byte slot length field and whose
offset and length fit u32. -/
def ValidEntry16 (e : List ℕ × ℕ × ℕ) : Prop :=
  (∀ c ∈ e.1, ValidScalar c) ∧ (utf8Encode e.1).length < 2 ^ 16 ∧
    e.2.1 < 2 ^ 32 ∧ e.2.2 < 2 ^ 32

instance : DecidablePred ValidEntry16 := fun e => by
  rw [ValidEntry16]
  infer_instance

theorem getD_eq_getElem2 {α : Type} (l : List α) (d : α) (i : ℕ)
    (h : i < l.length) : l.getD i d = l[i] := by
  simp [List.getD_eq_getElem?_getD, List.getElem?_eq_getElem h]

theorem getD_eq_default2 {α : Type} (l : List α) (d : α) (i : ℕ)
    (h : l.length ≤ i) : l.getD i d = d := by
  simp [List.getD_eq_getElem?_getD, List.getElem?_eq_none h]

theorem slot_term_valid (g : List (List ℕ × ℕ × ℕ))
    (hV : ∀ e ∈ g, ValidEntry16 e) (k : ℕ) :
    ∀ c ∈ (g.map (fun e => e.1)).getD k [], ValidScalar c := by
  intro c hc
  by_cases hk : k < (g.map (fun e => e.1)).length
  · rw [getD_eq_getElem2 _ _ _ hk, List.getElem_map] at hc
    exact (hV _ (List.getElem_mem _)).1 c hc
  · rw [getD_eq_default2 _ _ _ (by omega)] at hc
    cases hc

theorem slot_term_len (g : List (List ℕ × ℕ × ℕ))
    (hV : ∀ e ∈ g, ValidEntry16 e) (k : ℕ) :
    (utf8Encode ((g.map (fun e => e.1)).getD k [])).length < 2 ^ 16 := by
  by_cases hk : k < (g.map (fun e => e.1)).length
  · rw [getD_eq_getElem2 _ _ _ hk, List.getElem_map]
    exact (hV _ (List.getElem_mem _)).2.1
  · rw [getD_eq_default2 _ _ _ (by omega)]
    simp [utf8Encode]

theorem parseTerms_cons_slot (t : List ℕ) (hv : ∀ c ∈ t, ValidScalar c)
    (hlen : (utf8Encode t).length < 2 ^ 16) (k : ℕ) (rest : List ℕ) :
    parseTerms (k + 1) ((le16 (utf8Encode t).length ++ utf8Encode t) ++ rest)
      = (parseTerms k rest).map (fun r => (t :: r.1, r.2)) := by
  have hshape : (le16 (utf8Encode t).length ++ utf8Encode t) ++ rest =
      le16 (utf8Encode t).length ++ (utf8Encode t ++ rest) := by
    simp [List.append_assoc]
  rw [hshape, parseTerms, if_pos (by simp [le16]),
    read16_le16_append _ hlen,
    show (le16 (utf8Encode t).length ++ (utf8Encode t ++ rest)).drop 2 =
        utf8Encode t ++ rest from by
      rw [show (2 : ℕ) = (le16 (utf8Encode t).length).length from rfl,
        List.drop_left],
    List.take_left, List.drop_left, utf8Decode_encode t hv]

theorem lengths_bytes (g : List (List ℕ × ℕ × ℕ)) :
    ((g.take 3).map (fun e => le32 e.2.2)).flatten ++
      (List.replicate (3 - (g.take 3).length) (le32 0)).flatten =
    le32 (((g.take 3).map (fun e => e.2.2)).getD 0 0) ++
      (le32 (((g.take 3).map (fun e => e.2.2)).getD 1 0) ++
        le32 (((g.take 3).map (fun e => e.2.2)).getD 2 0)) := by
  obtain _ | ⟨a, _ | ⟨b, _ | ⟨c, rest⟩⟩⟩ := g <;> rfl

theorem flatten_map_le32_length (l : List (List ℕ × ℕ × ℕ)) :
    ((l.map (fun e => le32 e.2.2)).flatten).length = 4 * l.length := by
  induction l with
  | nil => rfl
  | cons e l ih =>
    simp only [List.map_cons, List.flatten_cons, List.length_append,
      List.length_cons, ih, le32_length]
    omega

theorem replicate_le32_flatten_length (n : ℕ) :
    ((List.replicate n (le32 0)).flatten).length = 4 * n := by
  induction n with
  | zero => rfl
  | succ n ih =>
    simp only [List.replicate_succ, List.flatten_cons, List.length_append,
      ih, le32_length]
    omega

theorem blockChunk_length_lt (g : List (List ℕ × ℕ × ℕ))
    (hV : ∀ e ∈ g, ValidEntry16 e) :
    (blockChunk g).length < 2 ^ 32 := by
  have h0 := slot_term_len g hV 0
  have h1 := slot_term_len g hV 1
  have h2 := slot_term_len g hV 2
  have h3 := slot_term_len g hV 3
  have htk : (g.take 3).length ≤ 3 := by
    simp [List.length_take]
  rw [blockChunk]
  simp only [slot, List.length_append, le32_length,
    flatten_map_le32_length, replicate_le32_flatten_length, le16,
    List.length_cons, List.length_nil]
  omega

theorem read32_le32 (x : ℕ) (hx : x < 2 ^ 32) : read32 (le32 x) = x := by
  have h := read32_le32_append x hx []
  simpa using h

theorem parseGroup_blockChunk (g : List (List ℕ × ℕ × ℕ)) (hg : g ≠ [])
    (hV : ∀ e ∈ g, ValidEntry16 e) :
    parseGroup (blockChunk g) = some
      ⟨[(g.map (fun e => e.1)).getD 0 [], (g.map (fun e => e.1)).getD 1 [],
        (g.map (fun e => e.1)).getD 2 [], (g.map (fun e => e.1)).getD 3 []],
        (g.map (fun e => e.2.1)).getD 0 0,
        [((g.take 3).map (fun e => e.2.2)).getD 0 0,
         ((g.take 3).map (fun e => e.2.2)).getD 1 0,
         ((g.take 3).map (fun e => e.2.2)).getD 2 0]⟩ := by
  have hoff : (g.map (fun e => e.2.1)).getD 0 0 < 2 ^ 32 := by
    have hk : 0 < (g.map (fun e => e.2.1)).length := by
      simp [List.length_map, List.length_pos.2 hg]
    rw [getD_eq_getElem2 _ _ _ hk, List.getElem_map]
    exact (hV _ (List.getElem_mem _)).2.2.1
  have hlenk : ∀ k, ((g.take 3).map (fun e => e.2.2)).getD k 0 < 2 ^ 32 := by
    intro k
    by_cases hk : k < ((g.take 3).map (fun e => e.2.2)).length
    · rw [getD_eq_getElem2 _ _ _ hk, List.getElem_map]
      exact (hV _ (List.mem_of_mem_take (List.getElem_mem _))).2.2.2
    · rw [getD_eq_default2 _ _ _ (by omega)]
      positivity
  rw [parseGroup, blockChunk, lengths_bytes]
  simp only [slot]
  set t0 := (g.map (fun e => e.1)).getD 0 [] with ht0
  set t1 := (g.map (fun e => e.1)).getD 1 [] with ht1
  set t2 := (g.map (fun e => e.1)).getD 2 [] with ht2
  set t3 := (g.map (fun e => e.1)).getD 3 [] with ht3
  set off := (g.map (fun e => e.2.1)).getD 0 0 with hoffd
  set L0 := ((g.take 3).map (fun e => e.2.2)).getD 0 0 with hL0
  set L1 := ((g.take 3).map (fun e => e.2.2)).getD 1 0 with hL1
  set L2 := ((g.take 3).map (fun e => e.2.2)).getD 2 0 with hL2
  rw [parseTerms_cons_slot t0 (slot_term_valid g hV 0) (slot_term_len g hV 0),
    parseTerms_cons_slot t1 (slot_term_valid g hV 1) (slot_term_len g hV 1),
    parseTerms_cons_slot t2 (slot_term_valid g hV 2) (slot_term_len g hV 2),
    parseTerms_cons_slot t3 (slot_term_valid g hV 3) (slot_term_len g hV 3),
    parseTerms]
  simp only [Option.map_some', Option.some_bind]
  have e1 : (le32 off ++ (le32 L0 ++ (le32 L1 ++ le32 L2))).drop 4 =
      le32 L0 ++ (le32 L1 ++ le32 L2) := by
    rw [show (4 : ℕ) = (le32 off).length from rfl, List.drop_left]
  have e2 : (le32 off ++ (le32 L0 ++ (le32 L1 ++ le32 L2))).drop 8 =
      le32 L1 ++ le32 L2 := by
    rw [show (8 : ℕ) = 4 + 4 from rfl, ← List.drop_drop, e1,
      show (4 : ℕ) = (le32 L0).length from rfl, List.drop_left]
  have e3 : (le32 off ++ (le32 L0 ++ (le32 L1 ++ le32 L2))).drop 12 =
      le32 L2 := by
    rw [show (12 : ℕ) = 8 + 4 from rfl, ← List.drop_drop, e2,
      show (4 : ℕ) = (le32 L1).length from rfl, List.drop_left]
  rw [if_pos (by simp [le32]), read32_le32_append off hoff, e1, e2, e3,
    read32_le32_append L0 (hlenk 0), read32_le32_append L1 (hlenk 1),
    read32_le32 L2 (hlenk 2)]

theorem blocking_roundtrip :
    ∀ (N : ℕ) (entries : List (List ℕ × ℕ × ℕ)), entries.length ≤ N →
      (∀ e ∈ entries, ValidEntry16 e) →
      blocking_decompressed (blocking_compressed entries) =
        some (expected_groups entries) := by
  intro N
  induction N with
  | zero =>
    intro entries hlen hV
    have hnil : entries = [] := List.eq_nil_of_length_eq_zero (by omega)
    subst hnil
    rw [blocking_compressed, dif_neg (by simp), blocking_decompressed,
      if_pos rfl, expected_groups, if_pos rfl]
  | succ N ih =>
    intro entries hlen hV
    by_cases hne : entries = []
    · subst hne
      rw [blocking_compressed, dif_neg (by simp), blocking_decompressed,
        if_pos rfl, expected_groups, if_pos rfl]
    · have hVt : ∀ e ∈ entries.take 4, ValidEntry16 e :=
        fun e he => hV e (List.mem_of_mem_take he)
      have htne : entries.take 4 ≠ [] := by
        intro hcon
        have h2 := congrArg List.length hcon
        have h3 := List.length_pos.2 hne
        simp only [List.length_take, List.length_nil] at h2
        omega
      have hclen : (blockChunk (entries.take 4)).length < 2 ^ 32 :=
        blockChunk_length_lt _ hVt
      rw [blocking_compressed, dif_pos hne, List.append_assoc]
      have hshape : le32 (blockChunk (entries.take 4)).length ++
          (blockChunk (entries.take 4) ++
            blocking_compressed (entries.drop 4)) ≠ [] := by
        simp [le32]
      rw [blocking_decompressed, if_neg hshape,
        if_pos (by simp [le32, List.length_append])]
      rw [read32_le32_append _ hclen,
        List.drop_left' (le32_length (blockChunk (entries.take 4)).length),
        List.take_left, List.drop_left,
        parseGroup_blockChunk _ htne hVt, Option.some_bind,
        ih (entries.drop 4)
          (by
            simp only [List.length_drop]
            have := List.length_pos.2 hne
            omega)
          (fun e he => hV e (List.mem_of_mem_drop he))]
      conv_rhs => rw [expected_groups]
      rw [if_neg hne]
      rfl

theorem expected_groups_length :
    ∀ (N : ℕ) (entries : List (List ℕ × ℕ × ℕ)), entries.length ≤ N →
      (expected_groups entries).length = (entries.length + 3) / 4 := by
  intro N
  induction N with
  | zero =>
    intro entries hlen
    have hnil : entries = [] := List.eq_nil_of_length_eq_zero (by omega)
    subst hnil
    rw [expected_groups, if_pos rfl]
    rfl
  | succ N ih =>
    intro entries hlen
    by_cases hne : entries = []
    · subst hne
      rw [expected_groups, if_pos rfl]
      rfl
    · rw [expected_groups, if_neg hne, List.length_cons,
        ih (entries.drop 4) (by
          simp only [List.length_drop]
          have := List.length_pos.2 hne
          omega)]
      simp only [List.length_drop]
      have := List.length_pos.2 hne
      omega

theorem blocking_compressed_nil : blocking_compressed [] = [] := by
  rw [blocking_compressed, dif_neg (by simp)]

theorem blocking_compressed_step (entries : List (List ℕ × ℕ × ℕ))
    (h : entries ≠ []) :
    blocking_compressed entries =
      (le32 (blockChunk (entries.take 4)).length ++
        blockChunk (entries.take 4)) ++
        blocking_compressed (entries.drop 4) := by
  rw [blocking_compressed, dif_pos h]

/-- Claim C9: the blocking codec stores, per group of four sorted terms,
the four terms (empty-string padded), one offset (the first term's) and
the first ≤ 3 lengths zero-padded to three fields: decoding an encoded
dictionary of T entries yields exactly ceil(T/4) = (T+3)/4 such groups;
and the encoding identifies dictionaries that differ only in the second
term's offset and the fourth term's length, so those fields are not
recoverable from the file. -/
theorem claim_C9 :
    (∀ entries : List (List ℕ × ℕ × ℕ),
      (∀ e ∈ entries, ValidEntry16 e) →
        blocking_decompressed (blocking_compressed entries) =
          some (expected_groups entries) ∧
        (expected_groups entries).length = (entries.length + 3) / 4) ∧
      blocking_compressed
          [([97], 0, 1), ([98], 5, 1), ([99], 6, 1), ([100], 7, 9)] =
        blocking_compressed
          [([97], 0, 1), ([98], 50, 1), ([99], 6, 1), ([100], 7, 99)] ∧
      ([([97], 0, 1), ([98], 5, 1), ([99], 6, 1), ([100], 7, 9)] :
          List (List ℕ × ℕ × ℕ)) ≠
        [([97], 0, 1), ([98], 50, 1), ([99], 6, 1), ([100], 7, 99)] := by
  refine ⟨fun entries hV =>
    ⟨blocking_roundtrip entries.length entries le_rfl hV,
     expected_groups_length entries.length entries le_rfl⟩, ?_, by decide⟩
  rw [blocking_compressed_step
      [([97], 0, 1), ([98], 5, 1), ([99], 6, 1), ([100], 7, 9)]
      (by decide),
    show (([([97], 0, 1), ([98], 5, 1), ([99], 6, 1), ([100], 7, 9)] :
      List (List ℕ × ℕ × ℕ)).drop 4) = [] from rfl,
    blocking_compressed_nil,
    blocking_compressed_step
      [([97], 0, 1), ([98], 50, 1), ([99], 6, 1), ([100], 7, 99)]
      (by decide),
    show (([([97], 0, 1), ([98], 50, 1), ([99], 6, 1), ([100], 7, 99)] :
      List (List ℕ × ℕ × ℕ)).drop 4) = [] from rfl,
    blocking_compressed_nil,
    show blockChunk (([([97], 0, 1), ([98], 5, 1), ([99], 6, 1),
      ([100], 7, 9)] : List (List ℕ × ℕ × ℕ)).take 4) =
    blockChunk (([([97], 0, 1), ([98], 50, 1), ([99], 6, 1),
      ([100], 7, 99)] : List (List ℕ × ℕ × ℕ)).take 4) from by decide]

/-- Concrete instance of claim C9's round-trip component on a two-entry
dictionary. -/
theorem claim_C9_witness :
    blocking_decompressed
        (blocking_compressed [([97], 0, 1), ([98], 5, 2)]) =
      some (expected_groups [([97], 0, 1), ([98], 5, 2)]) ∧
      (expected_groups [([97], 0, 1), ([98], 5, 2)]).length =
        (([([97], 0, 1), ([98], 5, 2)] :
          List (List ℕ × ℕ × ℕ)).length + 3) / 4 :=
  claim_C9.1 [([97], 0, 1), ([98], 5, 2)] (by decide)

/-- Claim C6 counterexample: a well-framed front-coded file holding one
record (prefix_len 0, suffix_len 1, suffix byte 0xFF — not decodable
UTF-8 — and zero offset and length).  The claim predicts the decoder
substitutes a replacement character and continues; front_coding_decode
instead aborts the scan (its suffix.decode("utf-8") raises, embedded as
none). -/
theorem claim_C6_counterexample :
    front_coding_decode [0, 1, 255, 0, 0, 0, 0, 0, 0, 0, 0] = none := by
  have hd255 : utf8Decode [255] = none := by
    rw [utf8Decode]
    rfl
  rw [front_coding_decode, fcLoop,
    show (List.take 1 [255, 0, 0, 0, 0, 0, 0, 0, 0] : List ℕ) = [255]
      from rfl, hd255]

/-- Claim C6 (amended): only blocking_decompressed is resilient to
undecodable term bytes — on a well-framed chunk whose single stored term
is the ill-formed byte 0xFF it substitutes U+FFFD and completes the scan
— while front_coding_decode decodes strictly, so the same ill-formed term
byte aborts its whole scan. -/
theorem claim_C6 :
    blocking_decompressed
        [25, 0, 0, 0, 1, 0, 255, 0, 0, 0, 0, 0, 0, 0, 0, 0, 0, 0, 0, 0,
          0, 0, 0, 0, 0, 0, 0, 0, 0] =
      some [⟨[[0xFFFD], [], [], []], 0, [0, 0, 0]⟩] ∧
      front_coding_decode [0, 1, 255, 0, 0, 0, 0, 0, 0, 0, 0] = none := by
  have hd255 : utf8Decode [255] = none := by
    rw [utf8Decode]
    rfl
  constructor
  · have hr255 : utf8DecodeReplace [255] = [0xFFFD] := by
      rw [utf8DecodeReplace]
      show (0xFFFD : ℕ) :: utf8DecodeReplace [] = [0xFFFD]
      rw [utf8DecodeReplace]
    have hde : utf8Decode [] = some [] := by
      rw [utf8Decode]
    simp [blocking_decompressed, parseGroup, parseTerms, read32, read16,
      hd255, hr255, hde]
  · rw [front_coding_decode, fcLoop,
      show (List.take 1 [255, 0, 0, 0, 0, 0, 0, 0, 0] : List ℕ) = [255]
        from rfl, hd255]

/-! ## Vector-space model (src/lab1/5_B.py)

Python floats are idealised as reals; math.log10 becomes Real.logb 10 and
math.sqrt becomes Real.sqrt, so these definitions are noncomputable but
exact.  A Python dict vector {term: weight} is embedded as a FinVec: a
finite domain of terms with a value function; dict.get(term, 0) becomes
FinVec.get, and dict.values() iterations become sums over the domain.
doc_vectors, whose dict iteration order determines the (stable) sort
order of tied similarities, is embedded as a list of (doc id, vector)
pairs in iteration order. -/

/-- A finite term-weight vector (a Python dict {term: tfidf}). -/
structure FinVec (T : Type) where
  dom : Finset T
  val : T → ℝ

/-- doc_vector.get(term, 0). -/
def FinVec.get {T : Type} [DecidableEq T] (v : FinVec T) (t : T) : ℝ :=
  if t ∈ v.dom then v.val t else 0

/-- Embeds calculate_tf of src/lab1/5_B.py:
1 + log10(term_count / total_terms) when total_terms > 0, else 0. -/
noncomputable def calculate_tf (term_count total_terms : ℝ) : ℝ :=
  if total_terms > 0 then 1 + Real.logb 10 (term_count / total_terms)
  else 0

/-- Embeds calculate_idf of src/lab1/5_B.py: log10(total_docs/doc_freq). -/
noncomputable def calculate_idf (total_docs doc_freq : ℝ) : ℝ :=
  Real.logb 10 (total_docs / doc_freq)

/-- Embeds build_document_vectors of src/lab1/5_B.py (sample_size = None):
for every term and every posting (doc, positions) the entry
doc_vectors[doc][term] = tf * idf with term_count = len(positions),
total_terms = doc_lengths.get(doc, 1), doc_freq = len(postings) and
total_docs = len(doc_lengths); the assignments are returned as the list
of (doc, term, tfidf) triples in loop order. -/
noncomputable def build_document_vectors {T : Type}
    (inverted_index : List (T × List (ℕ × List ℕ)))
    (doc_lengths : List (ℕ × ℕ)) : List (ℕ × T × ℝ) :=
  (inverted_index.map (fun tp =>
    tp.2.map (fun posting =>
      (posting.1, tp.1,
        calculate_tf (posting.2.length : ℝ)
            (((lookupA doc_lengths posting.1).getD 1 : ℕ) : ℝ) *
          calculate_idf (doc_lengths.length : ℝ)
            (tp.2.length : ℝ))))).flatten

/-- Embeds cosine_similarity of src/lab1/5_B.py: the dot product runs
over the query dict's items with doc_vector.get(term, 0); each norm runs
over that dict's own values; a zero norm short-circuits to 0. -/
noncomputable def cosine_similarity {T : Type} [DecidableEq T]
    (doc_vector query_vector : FinVec T) : ℝ :=
  if Real.sqrt (∑ t ∈ doc_vector.dom, doc_vector.val t ^ 2) = 0 ∨
      Real.sqrt (∑ t ∈ query_vector.dom, query_vector.val t ^ 2) = 0 then 0
  else
    (∑ t ∈ query_vector.dom, doc_vector.get t * query_vector.val t) /
      (Real.sqrt (∑ t ∈ doc_vector.dom, doc_vector.val t ^ 2) *
        Real.sqrt (∑ t ∈ query_vector.dom, query_vector.val t ^ 2))

/-- Embeds the similarity-collecting loop of vector_space_retrieval:
append (doc, sim) for each document in iteration order when sim > 0. -/
noncomputable def collect_sims {T : Type} [DecidableEq T]
    (query_vector : FinVec T) :
    List (ℕ × FinVec T) → List (ℕ × ℝ)
  | [] => []
  | dv :: rest =>
    if 0 < cosine_similarity dv.2 query_vector then
      (dv.1, cosine_similarity dv.2 query_vector) ::
        collect_sims query_vector rest
    else collect_sims query_vector rest

/-- The sort key order of similarities.sort(key=..., reverse=True):
descending similarity; insertion sort with this relation is exactly the
stable descending sort Python's list.sort performs. -/
def simGE (a b : ℕ × ℝ) : Prop := b.2 ≤ a.2

noncomputable instance : DecidableRel simGE := fun a b => by
  rw [simGE]
  infer_instance

instance : IsTotal (ℕ × ℝ) simGE := ⟨fun a b => le_total b.2 a.2⟩

instance : IsTrans (ℕ × ℝ) simGE :=
  ⟨fun _ _ _ h1 h2 => le_trans h2 h1⟩

/-- Embeds vector_space_retrieval of src/lab1/5_B.py: collect positive
similarities in doc_vectors order, sort stably by descending similarity,
return the first top_n. -/
noncomputable def vector_space_retrieval {T : Type} [DecidableEq T]
    (query_vector : FinVec T) (doc_vectors : List (ℕ × FinVec T))
    (top_n : ℕ) : List (ℕ × ℝ) :=
  ((collect_sims query_vector doc_vectors).insertionSort simGE).take top_n

/-- Modelled from the claim wording of C5: ties broken by document id
ascending — a pair goes before another when its similarity is strictly
larger or similarities are equal and its document id is smaller. -/
def simIdLt (a b : ℕ × ℝ) : Prop :=
  b.2 < a.2 ∨ (a.2 = b.2 ∧ a.1 < b.1)

noncomputable instance : DecidableRel simIdLt := fun a b => by
  rw [simIdLt]
  infer_instance

/-- Claimed version of vector_space_retrieval per C5: same filtering and
truncation, but sorted descending with ties broken by ascending id. -/
noncomputable def vsr_claimed {T : Type} [DecidableEq T]
    (query_vector : FinVec T) (doc_vectors : List (ℕ × FinVec T))
    (top_n : ℕ) : List (ℕ × ℝ) :=
  ((collect_sims query_vector doc_vectors).insertionSort simIdLt).take top_n

/-- Claim C8: for weight vectors with non-negative entries,
cosine_similarity lies in [0, 1], and a zero norm on either side
(including empty vectors) yields exactly 0 rather than a division. -/
theorem claim_C8 {T : Type} [DecidableEq T] (d q : FinVec T)
    (hd : ∀ t ∈ d.dom, 0 ≤ d.val t) (hq : ∀ t ∈ q.dom, 0 ≤ q.val t) :
    0 ≤ cosine_similarity d q ∧ cosine_similarity d q ≤ 1 ∧
      ((Real.sqrt (∑ t ∈ d.dom, d.val t ^ 2) = 0 ∨
        Real.sqrt (∑ t ∈ q.dom, q.val t ^ 2) = 0) →
        cosine_similarity d q = 0) := by
  rw [cosine_similarity]
  by_cases hz : Real.sqrt (∑ t ∈ d.dom, d.val t ^ 2) = 0 ∨
      Real.sqrt (∑ t ∈ q.dom, q.val t ^ 2) = 0
  · rw [if_pos hz]
    exact ⟨le_refl 0, by norm_num, fun _ => rfl⟩
  · rw [if_neg hz]
    push_neg at hz
    have hdnpos : 0 < Real.sqrt (∑ t ∈ d.dom, d.val t ^ 2) :=
      lt_of_le_of_ne (Real.sqrt_nonneg _) (Ne.symm hz.1)
    have hqnpos : 0 < Real.sqrt (∑ t ∈ q.dom, q.val t ^ 2) :=
      lt_of_le_of_ne (Real.sqrt_nonneg _) (Ne.symm hz.2)
    have hdot0 : 0 ≤ ∑ t ∈ q.dom, d.get t * q.val t :=
      Finset.sum_nonneg (fun t ht => by
        refine mul_nonneg ?_ (hq t ht)
        rw [FinVec.get]
        split_ifs with h
        · exact hd t h
        · exact le_refl 0)
    have hsq : (∑ t ∈ q.dom, d.get t * q.val t) ^ 2 ≤
        (∑ t ∈ q.dom, d.get t ^ 2) * (∑ t ∈ q.dom, q.val t ^ 2) :=
      Finset.sum_mul_sq_le_sq_mul_sq _ _ _
    have hsub : (∑ t ∈ q.dom, d.get t ^ 2) ≤
        ∑ t ∈ d.dom, d.val t ^ 2 := by
      have h1 : ∀ t ∈ q.dom, d.get t ^ 2 =
          if t ∈ d.dom then d.val t ^ 2 else 0 := by
        intro t _
        rw [FinVec.get]
        split_ifs <;> simp
      rw [Finset.sum_congr rfl h1, Finset.sum_ite_mem]
      exact Finset.sum_le_sum_of_subset_of_nonneg
        Finset.inter_subset_right (fun t _ _ => sq_nonneg _)
    have hdn2 : Real.sqrt (∑ t ∈ d.dom, d.val t ^ 2) ^ 2 =
        ∑ t ∈ d.dom, d.val t ^ 2 :=
      Real.sq_sqrt (Finset.sum_nonneg fun t _ => sq_nonneg _)
    have hqn2 : Real.sqrt (∑ t ∈ q.dom, q.val t ^ 2) ^ 2 =
        ∑ t ∈ q.dom, q.val t ^ 2 :=
      Real.sq_sqrt (Finset.sum_nonneg fun t _ => sq_nonneg _)
    have hq2nonneg : 0 ≤ ∑ t ∈ q.dom, q.val t ^ 2 :=
      Finset.sum_nonneg fun t _ => sq_nonneg _
    have hdotle : (∑ t ∈ q.dom, d.get t * q.val t) ≤
        Real.sqrt (∑ t ∈ d.dom, d.val t ^ 2) *
          Real.sqrt (∑ t ∈ q.dom, q.val t ^ 2) := by
      have h2 : (∑ t ∈ q.dom, d.get t * q.val t) ^ 2 ≤
          (Real.sqrt (∑ t ∈ d.dom, d.val t ^ 2) *
            Real.sqrt (∑ t ∈ q.dom, q.val t ^ 2)) ^ 2 := by
        rw [mul_pow, hdn2, hqn2]
        exact le_trans hsq (mul_le_mul_of_nonneg_right hsub hq2nonneg)
      nlinarith [hdot0, mul_pos hdnpos hqnpos]
    refine ⟨div_nonneg hdot0 (le_of_lt (mul_pos hdnpos hqnpos)),
      (div_le_one (mul_pos hdnpos hqnpos)).2 hdotle, fun hcon => ?_⟩
    rcases hcon with h | h
    · exact absurd h hz.1
    · exact absurd h hz.2

/-- Concrete instance of claim C8 for the one-term vectors {0: 1}. -/
theorem claim_C8_witness :
    0 ≤ cosine_similarity (⟨{0}, fun _ => 1⟩ : FinVec ℕ)
        ⟨{0}, fun _ => 1⟩ ∧
      cosine_similarity (⟨{0}, fun _ => 1⟩ : FinVec ℕ)
        ⟨{0}, fun _ => 1⟩ ≤ 1 ∧
      ((Real.sqrt (∑ t ∈ ({0} : Finset ℕ), (1 : ℝ) ^ 2) = 0 ∨
        Real.sqrt (∑ t ∈ ({0} : Finset ℕ), (1 : ℝ) ^ 2) = 0) →
        cosine_similarity (⟨{0}, fun _ => 1⟩ : FinVec ℕ)
          ⟨{0}, fun _ => 1⟩ = 0) :=
  claim_C8 ⟨{0}, fun _ => 1⟩ ⟨{0}, fun _ => 1⟩
    (fun t _ => by norm_num) (fun t _ => by norm_num)

/-- Claim C10: calculate_tf = 1 + log10(tc/tt) is negative whenever the
ratio tc/tt is below 1/10 (so, e.g., a term occurring once in a document
of 100 tokens); consequently build_document_vectors can emit a negative
TF-IDF entry, witnessed by a two-document collection where the term
occurs once in a 100-token document. -/
theorem claim_C10 :
    (∀ term_count total_terms : ℝ, 0 < term_count → 0 < total_terms →
      term_count / total_terms < 1 / 10 →
      calculate_tf term_count total_terms < 0) ∧
      ∃ e ∈ build_document_vectors [((0 : ℕ), [(1, [5])])]
        [(1, 100), (2, 100)], e.2.2 < 0 := by
  constructor
  · intro tc tt htc htt hr
    rw [calculate_tf, if_pos htt]
    have hpos : 0 < tc / tt := div_pos htc htt
    have hlt : Real.logb 10 (tc / tt) < -1 := by
      rw [Real.logb_lt_iff_lt_rpow (by norm_num) hpos, Real.rpow_neg_one]
      rw [show ((10 : ℝ))⁻¹ = 1 / 10 by norm_num]
      exact hr
    linarith
  · refine ⟨(1, 0, calculate_tf ((1 : ℕ) : ℝ) ((100 : ℕ) : ℝ) *
      calculate_idf ((2 : ℕ) : ℝ) ((1 : ℕ) : ℝ)), ?_, ?_⟩
    · simp [build_document_vectors, lookupA]
    · have htf : calculate_tf ((1 : ℕ) : ℝ) ((100 : ℕ) : ℝ) = -1 := by
        rw [calculate_tf, if_pos (by norm_num)]
        rw [show (((1 : ℕ) : ℝ) / ((100 : ℕ) : ℝ)) = ((10 : ℝ) ^ (2 : ℕ))⁻¹
          by norm_num]
        rw [Real.logb_inv, Real.logb_pow 10 10 2,
          Real.logb_self_eq_one (by norm_num)]
        norm_num
      have hidf : 0 < calculate_idf ((2 : ℕ) : ℝ) ((1 : ℕ) : ℝ) := by
        rw [calculate_idf, show (((2 : ℕ) : ℝ) / ((1 : ℕ) : ℝ)) = 2
          by norm_num]
        exact Real.logb_pos (by norm_num) (by norm_num)
      show calculate_tf ((1 : ℕ) : ℝ) ((100 : ℕ) : ℝ) *
        calculate_idf ((2 : ℕ) : ℝ) ((1 : ℕ) : ℝ) < 0
      rw [htf]
      linarith

/-- Concrete instance of claim C10's first component: a term occurring
once in a 100-token document has negative TF weight. -/
theorem claim_C10_witness : calculate_tf 1 100 < 0 :=
  claim_C10.1 1 100 (by norm_num) (by norm_num) (by norm_num)

/-- Claim C5 counterexample: two documents with identical one-term
vectors tie at similarity 1.  Python's stable sort leaves them in
doc_vectors iteration order (doc 2 before doc 1), not in ascending
document-id order as claimed. -/
theorem claim_C5_counterexample :
    vector_space_retrieval (⟨{0}, fun _ => 1⟩ : FinVec ℕ)
        [(2, ⟨{0}, fun _ => 1⟩), (1, ⟨{0}, fun _ => 1⟩)] 20 ≠
      vsr_claimed (⟨{0}, fun _ => 1⟩ : FinVec ℕ)
        [(2, ⟨{0}, fun _ => 1⟩), (1, ⟨{0}, fun _ => 1⟩)] 20 := by
  have hsim : cosine_similarity (⟨{0}, fun _ => 1⟩ : FinVec ℕ)
      ⟨{0}, fun _ => 1⟩ = 1 := by
    simp [cosine_similarity, FinVec.get, Real.sqrt_one]
  have hcol : collect_sims (⟨{0}, fun _ => 1⟩ : FinVec ℕ)
      [(2, ⟨{0}, fun _ => 1⟩), (1, ⟨{0}, fun _ => 1⟩)] =
      [(2, 1), (1, 1)] := by
    rw [collect_sims, collect_sims, collect_sims]
    simp [hsim]
  rw [vector_space_retrieval, vsr_claimed, hcol]
  have h1 : (([(2, (1 : ℝ)), (1, 1)]).insertionSort simGE) =
      [(2, 1), (1, 1)] := by
    simp [List.insertionSort, List.orderedInsert, simGE]
  have h2 : (([(2, (1 : ℝ)), (1, 1)]).insertionSort simIdLt) =
      [(1, 1), (2, 1)] := by
    simp [List.insertionSort, List.orderedInsert, simIdLt]
  rw [h1, h2, List.take_of_length_le (by simp),
    List.take_of_length_le (by simp)]
  simp

theorem orderedInsert_filter_simEq (a : ℕ × ℝ) (L : List (ℕ × ℝ))
    (x : ℝ) :
    (L.orderedInsert simGE a).filter (fun p => decide (p.2 = x)) =
      (a :: L).filter (fun p => decide (p.2 = x)) := by
  induction L with
  | nil => rfl
  | cons b L ih =>
    rw [List.orderedInsert]
    by_cases hab : simGE a b
    · rw [if_pos hab]
    · rw [if_neg hab]
      have hlt : a.2 < b.2 := by
        rw [simGE] at hab
        exact not_le.mp hab
      simp only [List.filter_cons]
      rw [ih]
      simp only [List.filter_cons]
      by_cases hbx : b.2 = x
      · have hax : a.2 ≠ x := by
          intro h
          exact absurd (h.trans hbx.symm) (ne_of_lt hlt)
        simp [hbx, hax]
      · simp [hbx]

theorem insertionSort_filter_simEq (L : List (ℕ × ℝ)) (x : ℝ) :
    (L.insertionSort simGE).filter (fun p => decide (p.2 = x)) =
      L.filter (fun p => decide (p.2 = x)) := by
  induction L with
  | nil => rfl
  | cons a L ih =>
    rw [List.insertionSort, orderedInsert_filter_simEq]
    simp only [List.filter_cons]
    rw [ih]

/-- Claim C5 (amended: ties keep the doc_vectors iteration order, the
stable-sort behavior of Python's list.sort, instead of ascending doc
id): vector_space_retrieval keeps exactly the documents with positive
cosine similarity paired with their similarity, and returns the first
top_n of the ranking: a list sorted by descending similarity which, for
every similarity value, lists the documents of that similarity in
exactly their collect_sims (= doc_vectors iteration) order.  The last
conjunct is the stability condition: together with sortedness it
determines the ranking uniquely, and it fails for any other tie order —
in particular for the ascending-document-id tie-break of the original
claim whenever that differs from iteration order. -/
theorem claim_C5 {T : Type} [DecidableEq T] (q : FinVec T)
    (dvs : List (ℕ × FinVec T)) (n : ℕ) :
    (collect_sims q dvs =
      (dvs.map (fun dv => (dv.1, cosine_similarity dv.2 q))).filter
        (fun p => decide (0 < p.2))) ∧
      ∃ full : List (ℕ × ℝ),
        vector_space_retrieval q dvs n = full.take n ∧
        full.Perm (collect_sims q dvs) ∧ full.Sorted simGE ∧
        ∀ x : ℝ, full.filter (fun p => decide (p.2 = x)) =
          (collect_sims q dvs).filter (fun p => decide (p.2 = x)) := by
  constructor
  · induction dvs with
    | nil => rfl
    | cons dv rest ih =>
      rw [collect_sims]
      by_cases h : 0 < cosine_similarity dv.2 q
      · rw [if_pos h, List.map_cons,
          List.filter_cons_of_pos (by simpa using h), ih]
      · rw [if_neg h, List.map_cons,
          List.filter_cons_of_neg (by simpa using h), ih]
  · exact ⟨(collect_sims q dvs).insertionSort simGE, rfl,
      List.perm_insertionSort simGE _, List.sorted_insertionSort simGE _,
      fun x => insertionSort_filter_simEq (collect_sims q dvs) x⟩
